import Mathlib

/-!
# flow-dps: WAL records, register reader, index loader, flow finder, flat forest

A shallow embedding of `ledger/wal/encoding.go` (`Decode`), of
`rosetta/invoker/read.go` (`readRegister`), of `service/loader/index.go`
(`Index.Trie`) and of `service/balance/flow.go` (`DetectFlow`,
`keyToRegisterID`), with the properties the specification states about them,
and a model of the trie, the forest and its flat form, which the sources hold
only the test of.

Conventions of the embedding.

* A Go `[]byte` or `string` is a `List Byte`; a byte is a `Fin 256`.  A nil
  slice is the empty list.
* A Go `error` is an `Option (Error E)`, `none` being `nil`.  `E` is the type
  of the error values made by the flow-go library functions the code calls;
  `Error.errorf` is an error made by `fmt.Errorf` without `%w`, and
  `Error.wrapf` one made with `%w`, which keeps the wrapped error.
* Go functions with several results return a structure or a tuple holding all
  of them, so that a value returned next to a non-nil error is not lost.
* A run-time panic of the embedded function itself (index or slice bound out of
  range) is the outer `none` of its `Option` result.
-/

namespace FlowDPS

/-! ## Bytes, formatting and errors -/

/-- One byte of a Go byte slice or string. -/
abbrev Byte := Fin 256

/-- A Go string: its bytes. -/
abbrev GoString := List Byte

/-- The ASCII code of the lower-case hexadecimal digit of a value below 16. -/
def hexDigit (n : Nat) : Byte :=
  if n < 10 then Fin.ofNat (48 + n) else Fin.ofNat (87 + n)

/-- The verb `%x` applied to a byte slice or a string: two lower-case
hexadecimal digits for each byte. -/
def hexBytes : List Byte → GoString
  | [] => []
  | b :: bs => hexDigit (b.val / 16) :: hexDigit (b.val % 16) :: hexBytes bs

/-- The verb `%x` applied to a `uint8`: hexadecimal without leading zeros. -/
def hexUint8 (b : Byte) : GoString :=
  if b.val < 16 then [hexDigit b.val] else [hexDigit (b.val / 16), hexDigit (b.val % 16)]

/-- The verb `%d` applied to an unsigned integer: its decimal digits. -/
def decimal (n : Nat) : GoString :=
  (Nat.toDigits 10 n).map fun c => Fin.ofNat c.toNat

/-- The text of a Go string of ASCII bytes, for the message of an error. -/
def text (s : GoString) : String :=
  String.mk (s.map fun b => Char.ofNat b.val)

/-- A Go error value.  `lib` lifts an error made by a library function,
`errorf` carries the formatted message of `fmt.Errorf` without `%w`, and
`wrapf` carries the format of a `fmt.Errorf` with `%w` and the wrapped error. -/
inductive Error (E : Type) where
  | lib (e : E)
  | errorf (message : String)
  | wrapf (format : String) (inner : Error E)
  deriving DecidableEq, Repr

/-- Go `errors.Unwrap`: the error wrapped with `%w`, if any. -/
def Error.unwrap {E : Type} : Error E → Option (Error E)
  | .wrapf _ inner => some inner
  | _ => none

/-- Go `s[lo:]` on a slice: panics (`none`) when `lo` exceeds the length. -/
def sliceFrom {α : Type} (s : List α) (lo : Nat) : Option (List α) :=
  if lo ≤ s.length then some (s.drop lo) else none

/-! ## `ledger/wal/encoding.go` -/

/-- Go `type Operation uint8`. -/
abbrev Operation := Byte

/-- Go `OperationUpdate Operation = 1`. -/
def OperationUpdate : Operation := 1

/-- Go `OperationDelete Operation = 2`. -/
def OperationDelete : Operation := 2

/-- The flow-go library surface `Decode` calls.  The three functions are not
part of this repository; `Decode` is embedded over any implementation of them.
Each returns all of its Go results, the error last (`none` is `nil`). -/
structure FlowGo where
  /-- Go `ledger.RootHash`. -/
  RootHash : Type
  /-- Go `ledger.TrieUpdate`. -/
  TrieUpdate : Type
  /-- The error values made by the library. -/
  LibError : Type
  /-- The zero value of `ledger.RootHash`. -/
  zeroRootHash : RootHash
  /-- Go `encoding.DecodeTrieUpdate`. -/
  DecodeTrieUpdate : List Byte → Option TrieUpdate × Option LibError
  /-- Go `utils.ReadShortData`: the data read, the rest, the error. -/
  ReadShortData : List Byte → List Byte × List Byte × Option LibError
  /-- Go `ledger.ToRootHash`. -/
  ToRootHash : List Byte → RootHash × Option LibError

/-- The four named results of `Decode`, over the library types of the root
hash, the trie update and the library errors. -/
structure Decoded (RootHash TrieUpdate LibError : Type) where
  operation : Operation
  rootHash : RootHash
  update : Option TrieUpdate
  err : Option (Error LibError)
  deriving DecidableEq, Repr

/-- The error of `Decode` for an input shorter than four bytes. -/
def errTooShort {E : Type} (data : List Byte) : Error E :=
  .errorf ("data corrupted, too short to represent operation - hexencoded data: "
    ++ text (hexBytes data))

/-- The error of `Decode` for an operation tag that is neither update nor
delete. -/
def errUnknownOperation {E : Type} (operation : Operation) : Error E :=
  .errorf ("unknown operation type, given: " ++ text (hexUint8 operation))

/-- Go `wal.Decode`.  The outer `none` is a run-time panic of `Decode` itself
(`data[0]` or `data[1:]` out of range). -/
def Decode (L : FlowGo) (data : List Byte) :
    Option (Decoded L.RootHash L.TrieUpdate L.LibError) :=
  if data.length < 4 then
    some { operation := 0, rootHash := L.zeroRootHash, update := none,
           err := some (errTooShort data) }
  else
    match data[0]?, sliceFrom data 1 with
    | some operation, some rest =>
      if operation = OperationUpdate then
        let r := L.DecodeTrieUpdate rest
        some { operation := operation, rootHash := L.zeroRootHash, update := r.1,
               err := r.2.map Error.lib }
      else if operation = OperationDelete then
        let r := L.ReadShortData rest
        match r.2.2 with
        | some e =>
          some { operation := operation, rootHash := L.zeroRootHash, update := none,
                 err := some (.wrapf "cannot read state commitment: %w" (.lib e)) }
        | none =>
          let h := L.ToRootHash r.1
          match h.2 with
          | some e =>
            some { operation := operation, rootHash := h.1, update := none,
                   err := some (.wrapf "invalid root hash: %w" (.lib e)) }
          | none =>
            some { operation := operation, rootHash := h.1, update := none, err := none }
      else
        some { operation := operation, rootHash := L.zeroRootHash, update := none,
               err := some (errUnknownOperation operation) }
    | _, _ => none

/-! ## The record layout of the specification

The flow-go functions behind `FlowGo` and the encoder of the records are not in
this repository.  The definitions of this section follow the record layout of
the specification (big-endian integers, length-prefixed sections). -/

/-- The errors of the modelled library readers. -/
inductive CodecError where
  | truncated
  | invalidRootHash
  deriving DecidableEq, Repr

/-- Modelled from the spec: the update carried by an Update record, missing
here as `ledger.TrieUpdate`: the root hash and the key/value pairs, in record
order. -/
structure TrieUpdate where
  rootHash : List Byte
  pairs : List (List Byte × List Byte)
  deriving DecidableEq, Repr

/-- Modelled from the spec: the WAL record, a tagged union of an update (root
hash, keys and values) and a delete (root hash only); the type is missing from
the sources. -/
inductive Record where
  | Update (rootHash : List Byte) (pairs : List (List Byte × List Byte))
  | Delete (rootHash : List Byte)
  deriving DecidableEq, Repr

/-- Modelled from the spec: a big-endian `uint16` field as written by the
missing encoder. -/
def appendUint16 (n : Nat) : List Byte :=
  [⟨n / 256 % 256, Nat.mod_lt _ (by decide)⟩, ⟨n % 256, Nat.mod_lt _ (by decide)⟩]

/-- Modelled from the spec: a big-endian `uint32` field as written by the
missing encoder. -/
def appendUint32 (n : Nat) : List Byte :=
  [⟨n / 16777216 % 256, Nat.mod_lt _ (by decide)⟩, ⟨n / 65536 % 256, Nat.mod_lt _ (by decide)⟩,
   ⟨n / 256 % 256, Nat.mod_lt _ (by decide)⟩, ⟨n % 256, Nat.mod_lt _ (by decide)⟩]

/-- Modelled from the spec: reading a big-endian `uint16` field (missing
library reader); fewer than two bytes is a truncation error. -/
def readUint16 : List Byte → Except CodecError (Nat × List Byte)
  | b0 :: b1 :: rest => .ok (b0.val * 256 + b1.val, rest)
  | _ => .error .truncated

/-- Modelled from the spec: reading a big-endian `uint32` field (missing
library reader); fewer than four bytes is a truncation error. -/
def readUint32 : List Byte → Except CodecError (Nat × List Byte)
  | b0 :: b1 :: b2 :: b3 :: rest =>
    .ok (((b0.val * 256 + b1.val) * 256 + b2.val) * 256 + b3.val, rest)
  | _ => .error .truncated

/-- Modelled from the spec: reading a section of a declared size (missing
library reader); a size that exceeds the remaining buffer is a truncation
error, not a read out of bounds. -/
def readSlice (size : Nat) (input : List Byte) : Except CodecError (List Byte × List Byte) :=
  if input.length < size then .error .truncated
  else .ok (input.take size, input.drop size)

/-- Modelled from the spec: reading a blob prefixed by its `uint16` length, the
missing `utils.ReadShortData`. -/
def readShortData (input : List Byte) : Except CodecError (List Byte × List Byte) :=
  match readUint16 input with
  | .error e => .error e
  | .ok (size, rest) => readSlice size rest

/-- Modelled from the spec: reading `count` key/value pairs, each a key of the
shared length `keyLen`, a `uint32` value length and the value (the keys/values
section read by the missing trie-update decoder). -/
def readPairs (keyLen : Nat) :
    Nat → List Byte → Except CodecError (List (List Byte × List Byte) × List Byte)
  | 0, input => .ok ([], input)
  | count + 1, input =>
    match readSlice keyLen input with
    | .error e => .error e
    | .ok (key, rest1) =>
      match readUint32 rest1 with
      | .error e => .error e
      | .ok (valueLen, rest2) =>
        match readSlice valueLen rest2 with
        | .error e => .error e
        | .ok (value, rest3) =>
          match readPairs keyLen count rest3 with
          | .error e => .error e
          | .ok (pairs, rest4) => .ok ((key, value) :: pairs, rest4)

/-- Modelled from the spec: the trie-update sub-decoder, the missing
`encoding.DecodeTrieUpdate`, applied to a record without its tag byte: the
length-prefixed root hash, the pair count `N`, the key length `K`, then `N`
pairs. -/
def decodeTrieUpdate (data : List Byte) : Except CodecError TrieUpdate :=
  match readShortData data with
  | .error e => .error e
  | .ok (rootHash, rest1) =>
    match readUint32 rest1 with
    | .error e => .error e
    | .ok (count, rest2) =>
      match readUint16 rest2 with
      | .error e => .error e
      | .ok (keyLen, rest3) =>
        match readPairs keyLen count rest3 with
        | .error e => .error e
        | .ok (pairs, _) => .ok { rootHash := rootHash, pairs := pairs }

/-- Modelled from the spec: the library surface of `Decode` over the record
layout of the specification.  What `ledger.ToRootHash` accepts is given by
neither the sources nor the specification and is the parameter `valid`. -/
@[reducible] def specFlowGo (valid : List Byte → Bool) : FlowGo where
  RootHash := List Byte
  TrieUpdate := TrieUpdate
  LibError := CodecError
  zeroRootHash := []
  DecodeTrieUpdate := fun data =>
    match decodeTrieUpdate data with
    | .ok u => (some u, none)
    | .error e => (none, some e)
  ReadShortData := fun input =>
    match readShortData input with
    | .ok (blob, rest) => (blob, rest, none)
    | .error e => ([], input, some e)
  ToRootHash := fun bytes =>
    if valid bytes then (bytes, none) else ([], some .invalidRootHash)

/-- The shared key length `K` written in an Update record: the length of the
first key, and 0 for a record with no pair. -/
def keyLength : List (List Byte × List Byte) → Nat
  | [] => 0
  | p :: _ => p.1.length

/-- Modelled from the spec: the keys/values section written by the missing
encoder: for every pair the key, the `uint32` value length and the value. -/
def encodePairs : List (List Byte × List Byte) → List Byte
  | [] => []
  | p :: ps => p.1 ++ appendUint32 p.2.length ++ p.2 ++ encodePairs ps

/-- Modelled from the spec: the missing `Encode`, the structural inverse of
`Decode`: the tag, the length-prefixed root hash and, for an update, the pair
count, the key length and the pairs. -/
def Encode : Record → List Byte
  | .Update rootHash pairs =>
    OperationUpdate :: (appendUint16 rootHash.length ++ rootHash
      ++ appendUint32 pairs.length ++ appendUint16 (keyLength pairs) ++ encodePairs pairs)
  | .Delete rootHash =>
    OperationDelete :: (appendUint16 rootHash.length ++ rootHash)

/-- The number of bytes the keys/values section of an update takes: for every
pair the key, the four bytes of the value length and the value. -/
def pairsSize : List (List Byte × List Byte) → Nat
  | [] => 0
  | p :: ps => p.1.length + 4 + p.2.length + pairsSize ps

/-- The records the layout can hold: every length fits its length field, and
the keys of an update share one length. -/
def Record.wellFormed : Record → Prop
  | .Update rootHash pairs =>
    rootHash.length < 65536 ∧ pairs.length < 4294967296
      ∧ (∀ p ∈ pairs, p.1.length = keyLength pairs) ∧ keyLength pairs < 65536
      ∧ ∀ p ∈ pairs, p.2.length < 4294967296
  | .Delete rootHash => rootHash.length < 65536

instance : DecidablePred Record.wellFormed := fun record =>
  match record with
  | .Update _ _ => by unfold Record.wellFormed; exact inferInstance
  | .Delete _ => by unfold Record.wellFormed; exact inferInstance

/-- For the examples: a `ledger.ToRootHash` that accepts every byte string.
What the library function accepts is given by neither the sources nor the
specification; the theorems on `specFlowGo` are for every `valid`. -/
def acceptAll : List Byte → Bool := fun _ => true

/-- For the examples: a `ledger.ToRootHash` that accepts the byte strings of
32 bytes and no other. -/
def accept32 : List Byte → Bool := fun bytes => bytes.length == 32

/-! ## `rosetta/invoker/read.go` -/

/-- Go `flow.RegisterValue`, a byte slice. -/
abbrev RegisterValue := List Byte

/-- Go `flow.RegisterID`. -/
structure RegisterID where
  Owner : GoString
  Controller : GoString
  Key : GoString
  deriving DecidableEq, Repr

/-- Go `flow.NewRegisterID`. -/
def NewRegisterID (owner controller key : GoString) : RegisterID :=
  { Owner := owner, Controller := controller, Key := key }

/-- A value held by the cache, an `interface{}`: a register value, or a value
of another type, on which the type assertion of `readRegister` panics. -/
inductive CacheValue where
  | registerValue (value : RegisterValue)
  | other
  deriving DecidableEq, Repr

/-- The collaborators of `readRegister` at the time of a call: the content of
the cache as seen by `cache.Get`, the conversion of a register identifier to a
ledger key and of a ledger key to a path, and the index.  The functions return
all of their Go results, the error last. -/
structure Collaborators where
  /-- Go `ledger.Key`. -/
  Key : Type
  /-- Go `ledger.Path`. -/
  Path : Type
  /-- The error values made by the collaborators. -/
  LibError : Type
  /-- Go `cache.Get`: the value and `ok`, as an option. -/
  cacheGet : GoString → Option CacheValue
  /-- Go `state.RegisterIDToKey`. -/
  RegisterIDToKey : RegisterID → Key
  /-- Go `complete.DefaultPathFinderVersion`. -/
  DefaultPathFinderVersion : Nat
  /-- Go `pathfinder.KeyToPath`. -/
  KeyToPath : Key → Nat → Path × Option LibError
  /-- Go `index.Registers`. -/
  Registers : Nat → List Path → List RegisterValue × Option LibError

/-- A call `readRegister` makes to a collaborator. -/
inductive Call (Key Path : Type) where
  | cacheGet (key : GoString)
  | keyToPath (key : Key) (version : Nat)
  | registers (height : Nat) (paths : List Path)
  | cacheSet (key : GoString) (value : RegisterValue) (cost : Int)
  deriving DecidableEq, Repr

/-- The results of the function returned by `readRegister`, with the calls it
made to its collaborators, in order. -/
structure ReadResult (Key Path LibError : Type) where
  value : RegisterValue
  err : Option (Error LibError)
  calls : List (Call Key Path)
  deriving DecidableEq, Repr

/-- The cache key of `readRegister`, Go
`fmt.Sprintf("%d/%x/%x/%s", height, owner, controller, key)`. -/
def cacheKey (height : Nat) (owner controller key : GoString) : GoString :=
  decimal height ++ [47] ++ hexBytes owner ++ [47] ++ hexBytes controller ++ [47] ++ key

/-- Go `readRegister(index, cache, height)` applied to `(owner, controller,
key)`; `height` is a `uint64`.  The outer `none` is a run-time panic: the type
assertion on a cached value of another type, or `values[0]` on an empty
list. -/
def readRegister (W : Collaborators) (height : Nat) (owner controller key : GoString) :
    Option (ReadResult W.Key W.Path W.LibError) :=
  let cacheKey := cacheKey height owner controller key
  match W.cacheGet cacheKey with
  | some (.registerValue cacheValue) =>
    some { value := cacheValue, err := none, calls := [.cacheGet cacheKey] }
  | some .other => none
  | none =>
    let regID := NewRegisterID owner controller key
    let ledgerKey := W.RegisterIDToKey regID
    let p := W.KeyToPath ledgerKey W.DefaultPathFinderVersion
    match p.2 with
    | some e =>
      some { value := [], err := some (.wrapf "could not convert key to path: %w" (.lib e)),
             calls := [.cacheGet cacheKey, .keyToPath ledgerKey W.DefaultPathFinderVersion] }
    | none =>
      let r := W.Registers height [p.1]
      match r.2 with
      | some e =>
        some { value := [], err := some (.wrapf "could not read register: %w" (.lib e)),
               calls := [.cacheGet cacheKey, .keyToPath ledgerKey W.DefaultPathFinderVersion,
                         .registers height [p.1]] }
      | none =>
        match r.1[0]? with
        | none => none
        | some value =>
          some { value := value, err := none,
                 calls := [.cacheGet cacheKey, .keyToPath ledgerKey W.DefaultPathFinderVersion,
                           .registers height [p.1],
                           .cacheSet cacheKey value (value.length : Int)] }

/-- Collaborators for the examples: the cache holds the bytes `[1, 2]` under
the cache key of `(7, [0xab], [], [107])` and nothing else; a register
identifier with an empty key has no path, and the path of any other is the
concatenation of its three parts; the index has no entry above height 100, and
holds below it, for every path, the first byte of the path. -/
@[reducible] def exampleCollaborators : Collaborators where
  Key := RegisterID
  Path := GoString
  LibError := String
  cacheGet := fun k =>
    if k = cacheKey 7 [0xab] [] [107] then some (.registerValue [1, 2]) else none
  RegisterIDToKey := fun id => id
  DefaultPathFinderVersion := 1
  KeyToPath := fun id _ =>
    if id.Key = [] then ([], some "empty key") else (id.Owner ++ id.Controller ++ id.Key, none)
  Registers := fun height paths =>
    if height > 100 then ([], some "not found") else (paths.map fun p => p.take 1, none)

/-! ## `service/loader/index.go` -/

/-- A batch the ledger iteration hands to the callback: the paths, and the
payload pointers (`none` is a nil pointer). -/
structure Batch (Path Payload : Type) where
  paths : List Path
  payloads : List (Option Payload)

/-- A line written to the log by `Index.Trie`: the two information lines, the
debug line of every batch with the number of its paths, and the progress line
with the value of `processed`. -/
inductive LogLine where
  | started
  | aboutToProcess (paths : Nat)
  | processing (processed : Nat)
  | finished
  deriving DecidableEq, Repr

/-- The collaborators of `Index.Trie`: the trie initializer of the
configuration, the trie update of flow-go, and what the index database holds:
the batches the ledger iteration delivers, in order, and the error, if any,
with which the iteration itself ends after the last batch. -/
structure Index where
  /-- Go `trie.MTrie`. -/
  MTrie : Type
  /-- Go `ledger.Path`. -/
  Path : Type
  /-- Go `ledger.Payload`. -/
  Payload : Type
  /-- The error values made by the collaborators. -/
  LibError : Type
  /-- Go `i.cfg.TrieInitializer.Trie()`. -/
  TrieInitializer : Option MTrie × Option LibError
  /-- Go `trie.NewTrieWithUpdatedRegisters`; the last argument is the prune
  flag. -/
  NewTrieWithUpdatedRegisters :
    Option MTrie → List Path → List Payload → Bool → Option MTrie × Option LibError
  /-- The batches of the persisted ledger. -/
  ledger : List (Batch Path Payload)
  /-- The error of the iteration itself. -/
  iterationError : Option LibError

/-- The variables captured by the callback `process`: the tree, the counter
`processed`, and the log written so far. -/
structure LoaderState (MTrie : Type) where
  tree : Option MTrie
  processed : Nat
  logs : List LogLine
  deriving DecidableEq, Repr

/-- The loop `for i, p := range payloads { realPayloads[i] = *p }`: the payloads
the pointers point to; a nil pointer is a panic (`none`). -/
def derefAll {Payload : Type} : List (Option Payload) → Option (List Payload)
  | [] => some []
  | none :: _ => none
  | some p :: ps =>
    match derefAll ps with
    | none => none
    | some real => some (p :: real)

/-- The callback `process` of `Index.Trie`, as a step on the captured
variables; `processed` is a Go `int` that stays below `10000 + len(paths)`.
The outer `none` is the panic of a nil payload pointer. -/
def process (I : Index) (s : LoaderState I.MTrie) (paths : List I.Path)
    (payloads : List (Option I.Payload)) :
    Option (LoaderState I.MTrie × Option (Error I.LibError)) :=
  let logs := s.logs ++ [.aboutToProcess paths.length]
  match derefAll payloads with
  | none => none
  | some realPayloads =>
    let r := I.NewTrieWithUpdatedRegisters s.tree paths realPayloads false
    match r.2 with
    | some e =>
      some ({ tree := r.1, processed := s.processed, logs := logs },
            some (.wrapf "could not update trie: %w" (.lib e)))
    | none =>
      let processed := s.processed + paths.length
      if processed ≥ 10000 then
        some ({ tree := r.1, processed := 0, logs := logs ++ [.processing processed] }, none)
      else
        some ({ tree := r.1, processed := processed, logs := logs }, none)

/-- Modelled from the spec: the ledger iteration `lib.IterateLedger` run by
`db.View`, which is not in the sources: it hands the batches to the callback in
order, stops at the first error of the callback and returns it, and otherwise
ends with its own error, if any. -/
def IterateLedger (I : Index) (s : LoaderState I.MTrie) :
    List (Batch I.Path I.Payload) → Option (LoaderState I.MTrie × Option (Error I.LibError))
  | [] => some (s, I.iterationError.map Error.lib)
  | b :: bs =>
    match process I s b.paths b.payloads with
    | none => none
    | some (s1, some e) => some (s1, some e)
    | some (s1, none) => IterateLedger I s1 bs

/-- The results of `Index.Trie`, with the final value of the counter
`processed` and the log. -/
structure Restored (MTrie LibError : Type) where
  tree : Option MTrie
  err : Option (Error LibError)
  processed : Nat
  logs : List LogLine
  deriving DecidableEq, Repr

/-- Go `(*Index).Trie`.  The duration of the last log line is left out.  The
outer `none` is a panic of the callback. -/
def Index.Trie (I : Index) : Option (Restored I.MTrie I.LibError) :=
  let t := I.TrieInitializer
  match t.2 with
  | some e =>
    some { tree := none, err := some (.wrapf "could not initialize trie: %w" (.lib e)),
           processed := 0, logs := [.started] }
  | none =>
    match IterateLedger I { tree := t.1, processed := 0, logs := [.started] } I.ledger with
    | none => none
    | some (s, some e) =>
      some { tree := none, err := some (.wrapf "could not iterate ledger: %w" e),
             processed := s.processed, logs := s.logs }
    | some (s, none) =>
      some { tree := s.tree, err := none, processed := s.processed,
             logs := s.logs ++ [.finished] }

/-- A batch of payload values, handed over through pointers to them. -/
def Batch.ofValues {Path Payload : Type} (b : List Path × List Payload) : Batch Path Payload :=
  { paths := b.1, payloads := b.2.map some }

/-- The left fold of the trie update over batches of paths and payload values:
`t_i = update(t_(i-1), paths_i, payloads_i)`, without counter and without
log. -/
def foldUpdates (I : Index) (t : Option I.MTrie) :
    List (List I.Path × List I.Payload) → Option I.MTrie
  | [] => t
  | b :: bs => foldUpdates I (I.NewTrieWithUpdatedRegisters t b.1 b.2 false).1 bs

/-- Whether every update of the left fold succeeds. -/
def updatesSucceed (I : Index) (t : Option I.MTrie) :
    List (List I.Path × List I.Payload) → Bool
  | [] => true
  | b :: bs =>
    (I.NewTrieWithUpdatedRegisters t b.1 b.2 false).2.isNone
      && updatesSucceed I (I.NewTrieWithUpdatedRegisters t b.1 b.2 false).1 bs

/-- The counter `processed` after batches with the given numbers of paths,
from the value `c`: it is reset when it reaches 10000. -/
def counterAfter (c : Nat) : List Nat → Nat
  | [] => c
  | n :: ns => counterAfter (if c + n ≥ 10000 then 0 else c + n) ns

/-- An index for the examples: a trie is the list of its registers, the update
appends the batch, and fails on a batch with more paths than payloads. -/
@[reducible] def exampleIndex (ledger : List (Batch Nat Nat)) : Index where
  MTrie := List (Nat × Nat)
  Path := Nat
  Payload := Nat
  LibError := String
  TrieInitializer := (some [], none)
  NewTrieWithUpdatedRegisters := fun t paths payloads _ =>
    if payloads.length < paths.length then (none, some "length mismatch")
    else (some (t.getD [] ++ paths.zip payloads), none)
  ledger := ledger
  iterationError := none

/-- An index for the examples whose trie initializer fails. -/
@[reducible] def failingIndex (ledger : List (Batch Nat Nat)) : Index where
  MTrie := List (Nat × Nat)
  Path := Nat
  Payload := Nat
  LibError := String
  TrieInitializer := (none, some "no checkpoint")
  NewTrieWithUpdatedRegisters := fun t paths payloads _ =>
    (some (t.getD [] ++ paths.zip payloads), none)
  ledger := ledger
  iterationError := none

/-- An index for the examples whose trie is the number of registers written to
it. -/
@[reducible] def countingIndex (ledger : List (Batch Nat Nat)) : Index where
  MTrie := Nat
  Path := Nat
  Payload := Nat
  LibError := String
  TrieInitializer := (some 0, none)
  NewTrieWithUpdatedRegisters := fun t paths _ _ => (some (t.getD 0 + paths.length), none)
  ledger := ledger
  iterationError := none

/-! ## `service/balance/flow.go` -/

/-- Go `ledger.KeyPart`: the type, a `uint16`, and the value. -/
structure KeyPart where
  PartType : Nat
  Value : List Byte
  deriving DecidableEq, Repr

/-- Go `ledger.Key`. -/
structure Key where
  KeyParts : List KeyPart
  deriving DecidableEq, Repr

/-- Go `ledger.Payload`. -/
structure Payload where
  Key : Key
  Value : List Byte
  deriving DecidableEq, Repr

/-- Go `strings.HasPrefix(s, p)`. -/
def HasPrefix (s p : GoString) : Bool :=
  match p, s with
  | [], _ => true
  | _ :: _, [] => false
  | b :: p1, a :: s1 => a == b && HasPrefix s1 p1

/-- The bytes of an ASCII string literal. -/
def ascii (s : String) : GoString :=
  s.toList.map fun c => Fin.ofNat c.toNat

/-- The receiver of `DetectFlow` with the constants and functions of flow-go
and Cadence that `flow.go` uses, none of which is part of this repository.
`detect` stands for the last part of `DetectFlow`, from the decoding of the
payload value to the visit of the decoded value that adds the balances to
`flows`: it returns the flows and the error. -/
structure FlowFinder where
  /-- Go `ledger.Path`. -/
  Path : Type
  /-- Go `map[flow.Address]map[ledger.Path]uint64`. -/
  Flows : Type
  /-- The error values made by the libraries. -/
  LibError : Type
  /-- Go `executionState.KeyPartOwner`. -/
  KeyPartOwner : Nat
  /-- Go `executionState.KeyPartController`. -/
  KeyPartController : Nat
  /-- Go `executionState.KeyPartKey`. -/
  KeyPartKey : Nat
  /-- Go `key.String()`. -/
  keyString : Key → String
  /-- Go `state.IsFVMStateKey`. -/
  IsFVMStateKey : GoString → GoString → GoString → Bool
  /-- Go `common.PathDomainPublic.Identifier()`. -/
  PathDomainPublic : GoString
  /-- Go `common.PathDomainPrivate.Identifier()`. -/
  PathDomainPrivate : GoString
  /-- Go `common.PathDomainStorage.Identifier()`. -/
  PathDomainStorage : GoString
  /-- The decoding of the value and the detection of the balances. -/
  detect : Path → Payload → RegisterID → Flows → Flows × Option (Error LibError)

/-- The error of `keyToRegisterID`. -/
def errKeyFormat {E : Type} (keyString : String) : Error E :=
  .errorf ("key not in expected format " ++ keyString)

/-- Go `keyToRegisterID`.  The conditions joined by `||` are evaluated from
left to right, and the evaluation stops at the first that holds.  The outer
`none` is a panic: a key part indexed beyond the length of `KeyParts`. -/
def keyToRegisterID (F : FlowFinder) (key : Key) :
    Option (RegisterID × Option (Error F.LibError)) :=
  let failure : Option (RegisterID × Option (Error F.LibError)) :=
    some (NewRegisterID [] [] [], some (errKeyFormat (F.keyString key)))
  if key.KeyParts.length ≠ 3 then failure
  else
    match key.KeyParts[0]? with
    | none => none
    | some part0 =>
      if part0.PartType ≠ F.KeyPartOwner then failure
      else
        match key.KeyParts[1]? with
        | none => none
        | some part1 =>
          if part1.PartType ≠ F.KeyPartController then failure
          else
            match key.KeyParts[2]? with
            | none => none
            | some part2 =>
              if part2.PartType ≠ F.KeyPartKey then failure
              else some (NewRegisterID part0.Value part1.Value part2.Value, none)

/-- Where `DetectFlow` returned. -/
inductive Stage where
  | keyRejected
  | fvmStateKey
  | notStoragePath
  | detected
  deriving DecidableEq, Repr

/-- The result of `DetectFlow`: the error, the map `flows` after the call, and
the place of the return. -/
structure Detected (Flows LibError : Type) where
  err : Option (Error LibError)
  flows : Flows
  stage : Stage
  deriving DecidableEq, Repr

/-- Go `(*FlowFinder).DetectFlow`, for a non-nil payload.  The outer `none` is
a panic. -/
def DetectFlow (F : FlowFinder) (path : F.Path) (p : Payload) (flows : F.Flows) :
    Option (Detected F.Flows F.LibError) :=
  match keyToRegisterID F p.Key with
  | none => none
  | some (_, some err) => some { err := some err, flows := flows, stage := .keyRejected }
  | some (id, none) =>
    if F.IsFVMStateKey id.Owner id.Controller id.Key then
      some { err := none, flows := flows, stage := .fvmStateKey }
    else if !(HasPrefix id.Key F.PathDomainPublic &&
        HasPrefix id.Key F.PathDomainPrivate &&
        HasPrefix id.Key F.PathDomainStorage) then
      some { err := none, flows := flows, stage := .notStoragePath }
    else
      let r := F.detect path p id flows
      some { err := r.2, flows := r.1, stage := .detected }

/-- A flow finder for the examples, with the key part types 0, 1 and 2 and the
domain identifiers `public`, `private` and `storage`: no key is a state key of
the virtual machine, the flows are a list of owners and balances, and the
detection adds the owner with the length of the value as balance. -/
@[reducible] def exampleFinder : FlowFinder where
  Path := Nat
  Flows := List (GoString × Nat)
  LibError := String
  KeyPartOwner := 0
  KeyPartController := 1
  KeyPartKey := 2
  keyString := fun key => toString (key.KeyParts.map fun part => part.PartType)
  IsFVMStateKey := fun _ _ _ => false
  PathDomainPublic := ascii "public"
  PathDomainPrivate := ascii "private"
  PathDomainStorage := ascii "storage"
  detect := fun _ p id flows => ((id.Owner, p.Value.length) :: flows, none)

/-- A payload for the examples: the owner, an empty controller, the key and the
value. -/
def examplePayload (owner key value : GoString) : Payload :=
  { Key := { KeyParts := [⟨0, owner⟩, ⟨1, []⟩, ⟨2, key⟩] }, Value := value }

/-- The number written by a string of decimal digits. -/
def decimalValue (s : GoString) : Nat :=
  s.foldl (fun acc b => acc * 10 + (b.val - 48)) 0

/-! ## The trie, the forest and the flat form of the specification

The packages `ledger/trie` and `ledger/forest` are not in the sources, which
hold only the test of the flat form.  The definitions of this section follow
the data model and the component design of the specification. -/

/-- A trie path: a bit string of fixed width. -/
abbrev TriePath := List Bool

/-- Modelled from the spec: the parameters of the trie, missing with the
package `ledger/trie`: the type of the hashes with its decidable equality, the
hash of the empty node, the hash `H(path, payload)` of a leaf, the hash
`H(leftHash, rightHash, depth)` of a branch, and the width of the paths. -/
structure TrieParams where
  Hash : Type
  decEq : DecidableEq Hash
  emptyHash : Hash
  hashLeaf : TriePath → Payload → Hash
  hashBranch : Hash → Hash → Nat → Hash
  pathWidth : Nat

instance (H : TrieParams) : DecidableEq H.Hash := H.decEq

/-- Modelled from the spec: the node of the missing package `ledger/trie`, of
three shapes: empty, leaf (path, payload, hash) and branch (left and right
child, hash).  A branch also carries its depth, which its hash takes. -/
inductive Node (H : TrieParams) where
  | empty
  | leaf (path : TriePath) (payload : Payload) (hash : H.Hash)
  | branch (left right : Node H) (depth : Nat) (hash : H.Hash)
  deriving DecidableEq

/-- The hash a node holds; the empty node has the hash of the empty trie. -/
def Node.hash {H : TrieParams} : Node H → H.Hash
  | .empty => H.emptyHash
  | .leaf _ _ h => h
  | .branch _ _ _ h => h

/-- The hash of a node computed from its content, bottom-up. -/
def Node.computedHash {H : TrieParams} : Node H → H.Hash
  | .empty => H.emptyHash
  | .leaf path payload _ => H.hashLeaf path payload
  | .branch left right depth _ => H.hashBranch left.hash right.hash depth

/-- Whether every node of the sub-tree holds the hash computed from its
content. -/
def Node.consistent {H : TrieParams} : Node H → Bool
  | .empty => true
  | .leaf path payload h => decide (H.hashLeaf path payload = h)
  | .branch left right depth h =>
    left.consistent && right.consistent && decide (H.hashBranch left.hash right.hash depth = h)

/-- Modelled from the spec: the trie of the missing package `ledger/trie`, which
owns a root node; its root hash is the hash of the root. -/
structure Trie (H : TrieParams) where
  root : Node H

/-- Modelled from the spec: `RootHash`. -/
def Trie.RootHash {H : TrieParams} (t : Trie H) : H.Hash := t.root.hash

/-- Modelled from the spec: `NewEmpty`, the canonical empty trie. -/
def Trie.NewEmpty (H : TrieParams) : Trie H := { root := .empty }

/-- A leaf with the hash of its content. -/
def Node.mkLeaf {H : TrieParams} (path : TriePath) (payload : Payload) : Node H :=
  .leaf path payload (H.hashLeaf path payload)

/-- A branch with the hash of its content. -/
def Node.mkBranch {H : TrieParams} (left right : Node H) (depth : Nat) : Node H :=
  .branch left right depth (H.hashBranch left.hash right.hash depth)

/-- The children of a node: those of a branch, and two empty nodes otherwise. -/
def Node.children {H : TrieParams} : Node H → Node H × Node H
  | .branch left right _ _ => (left, right)
  | _ => (.empty, .empty)

/-- Modelled from the spec: the batch insert of `Mutate`: the writes are
partitioned by the next unconsumed bit and the two subsets are inserted into
the left and the right child; an empty subset returns the untouched child; when
all the bits are consumed the last write wins.  `remaining` is the number of
unconsumed bits. -/
def Node.update {H : TrieParams} :
    Nat → Nat → Node H → List (TriePath × Payload) → Node H
  | _, _, n, [] => n
  | 0, _, _, w :: ws => Node.mkLeaf ((w :: ws).getLast (List.cons_ne_nil w ws)).1
      ((w :: ws).getLast (List.cons_ne_nil w ws)).2
  | remaining + 1, depth, n, w :: ws =>
    Node.mkBranch
      (Node.update remaining (depth + 1) n.children.1
        ((w :: ws).filter fun x => x.1.getD depth false == false))
      (Node.update remaining (depth + 1) n.children.2
        ((w :: ws).filter fun x => x.1.getD depth false == true))
      depth

/-- The errors of `Mutate`. -/
inductive MutateError where
  | LengthMismatch
  | InvalidPath
  deriving DecidableEq, Repr

/-- Modelled from the spec: `Mutate` of the missing package `ledger/trie`: a
new trie with the batch of writes applied; the receiver is not changed. -/
def Trie.Mutate {H : TrieParams} (t : Trie H) (paths : List TriePath) (payloads : List Payload) :
    Except MutateError (Trie H) :=
  if paths.length ≠ payloads.length then .error .LengthMismatch
  else if paths.any (fun p => p.length != H.pathWidth) then .error .InvalidPath
  else .ok { root := Node.update H.pathWidth 0 t.root (paths.zip payloads) }

/-- An entry of the forest: a trie with the parent and the commitment given
when it was added. -/
structure ForestEntry (H : TrieParams) where
  trie : Trie H
  parent : Option H.Hash
  commitment : H.Hash

/-- Modelled from the spec: the forest of the missing package `ledger/forest`,
of unbounded capacity as for the flat form: its entries in insertion order. -/
structure Forest (H : TrieParams) where
  entries : List (ForestEntry H)

/-- Modelled from the spec: `New`. -/
def Forest.New (H : TrieParams) : Forest H := { entries := [] }

/-- Modelled from the spec: `Tries`, the tries in insertion order. -/
def Forest.Tries {H : TrieParams} (f : Forest H) : List (Trie H) :=
  f.entries.map fun e => e.trie

/-- Modelled from the spec: `Add`, an idempotent insert: adding a trie already
present, a trie with the root hash of a trie of the forest, is a no-op.  The
test adds two tries with the same last argument and expects both in the
forest, so that argument does not decide whether a trie is present. -/
def Forest.Add {H : TrieParams} (f : Forest H) (trie : Trie H) (parent : Option H.Hash)
    (commitment : H.Hash) : Forest H :=
  if f.entries.any (fun e => decide (e.trie.RootHash = trie.RootHash)) then f
  else { entries := f.entries ++ [{ trie := trie, parent := parent, commitment := commitment }] }

/-- Modelled from the spec: the flat node record, at the position that is its
index: empty, leaf (path, payload) or branch (the indices of the two
children), with the recorded hash, and for a branch its depth. -/
inductive FlatNode (H : TrieParams) where
  | empty
  | leaf (path : TriePath) (payload : Payload) (hash : H.Hash)
  | branch (left right : Nat) (depth : Nat) (hash : H.Hash)

/-- The recorded hash of a flat node record. -/
def FlatNode.hash {H : TrieParams} : FlatNode H → H.Hash
  | .empty => H.emptyHash
  | .leaf _ _ h => h
  | .branch _ _ _ h => h

/-- Modelled from the spec: the flat form of a forest: the node records in
index order, and for every trie the index of its root and its commitment. -/
structure FlatForm (H : TrieParams) where
  nodes : List (FlatNode H)
  roots : List (Nat × H.Hash)

/-- The error of `FlattenForest`. -/
inductive FlattenError where
  | InconsistentHash
  deriving DecidableEq, Repr

/-- The errors of `RebuildTries`. -/
inductive RebuildError where
  | MalformedRecord
  | HashMismatch
  deriving DecidableEq, Repr

/-- The index already assigned to a hash, if any: the position of the first
record with that hash. -/
def indexOfHash {H : TrieParams} (h : H.Hash) : List (FlatNode H) → Option Nat
  | [] => none
  | r :: rs => if r.hash = h then some 0 else (indexOfHash h rs).map (· + 1)

/-- Modelled from the spec: the post-order traversal of `FlattenForest` from
one node: a node whose hash has an index already is not recorded again, and is
an `InconsistentHash` error if its computed hash is not that hash; otherwise
its children are recorded before it. It returns the records and the index of
the node. -/
def flattenNode {H : TrieParams} (nodes : List (FlatNode H)) :
    Node H → Except FlattenError (List (FlatNode H) × Nat)
  | .empty =>
    match indexOfHash H.emptyHash nodes with
    | some i => .ok (nodes, i)
    | none => .ok (nodes ++ [.empty], nodes.length)
  | .leaf path payload h =>
    match indexOfHash h nodes with
    | some i => if H.hashLeaf path payload = h then .ok (nodes, i) else .error .InconsistentHash
    | none => .ok (nodes ++ [.leaf path payload h], nodes.length)
  | .branch left right depth h =>
    match indexOfHash h nodes with
    | some i =>
      if H.hashBranch left.hash right.hash depth = h then .ok (nodes, i)
      else .error .InconsistentHash
    | none =>
      match flattenNode nodes left with
      | .error e => .error e
      | .ok (nodes1, i) =>
        match flattenNode nodes1 right with
        | .error e => .error e
        | .ok (nodes2, j) => .ok (nodes2 ++ [.branch i j depth h], nodes2.length)

/-- The traversal of `FlattenForest` over the entries of the forest, in order,
from the records and the roots recorded so far. -/
def flattenEntries {H : TrieParams} :
    List (ForestEntry H) → List (FlatNode H) → List (Nat × H.Hash) →
      Except FlattenError (FlatForm H)
  | [], nodes, roots => .ok { nodes := nodes, roots := roots }
  | e :: es, nodes, roots =>
    match flattenNode nodes e.trie.root with
    | .error err => .error err
    | .ok (nodes1, i) => flattenEntries es nodes1 (roots ++ [(i, e.commitment)])

/-- Modelled from the spec: `FlattenForest` of the missing package
`ledger/forest`. -/
def FlattenForest {H : TrieParams} (f : Forest H) : Except FlattenError (FlatForm H) :=
  flattenEntries f.entries [] []

/-- Modelled from the spec: the node `RebuildTries` makes of one record, given
the nodes made of the records before it: `MalformedRecord` if a child index is
not below the index of the record, `HashMismatch` if the hash computed for the
node is not the recorded hash. -/
def rebuildNode {H : TrieParams} (built : List (Node H)) :
    FlatNode H → Except RebuildError (Node H)
  | .empty => .ok .empty
  | .leaf path payload h =>
    if H.hashLeaf path payload = h then .ok (.leaf path payload h) else .error .HashMismatch
  | .branch i j depth h =>
    match built[i]?, built[j]? with
    | some left, some right =>
      if H.hashBranch left.hash right.hash depth = h then .ok (.branch left right depth h)
      else .error .HashMismatch
    | _, _ => .error .MalformedRecord

/-- The forward pass of `RebuildTries` over the records, from the nodes built
so far. -/
def rebuildNodes {H : TrieParams} (built : List (Node H)) :
    List (FlatNode H) → Except RebuildError (List (Node H))
  | [] => .ok built
  | r :: rs =>
    match rebuildNode built r with
    | .error e => .error e
    | .ok n => rebuildNodes (built ++ [n]) rs

/-- The tries of the recorded roots, in order. -/
def rebuildRoots {H : TrieParams} (built : List (Node H)) :
    List (Nat × H.Hash) → Except RebuildError (List (Trie H))
  | [] => .ok []
  | r :: rs =>
    match built[r.1]? with
    | none => .error .MalformedRecord
    | some n =>
      match rebuildRoots built rs with
      | .error e => .error e
      | .ok ts => .ok ({ root := n } :: ts)

/-- Modelled from the spec: `RebuildTries` of the missing package
`ledger/forest`. -/
def RebuildTries {H : TrieParams} (flat : FlatForm H) : Except RebuildError (List (Trie H)) :=
  match rebuildNodes [] flat.nodes with
  | .error e => .error e
  | .ok built => rebuildRoots built flat.roots

/-- The nodes of a sub-tree, the node itself first. -/
def Node.nodes {H : TrieParams} : Node H → List (Node H)
  | .empty => [.empty]
  | .leaf path payload h => [.leaf path payload h]
  | .branch left right depth h => .branch left right depth h :: (left.nodes ++ right.nodes)

/-- The nodes of all the tries of a forest. -/
def Forest.nodes {H : TrieParams} (f : Forest H) : List (Node H) :=
  f.Tries.flatMap fun t => t.root.nodes

/-- The content-addressing invariant of the data model, for the nodes of a
forest: two nodes with identical hash are identical. -/
def Forest.contentAddressed {H : TrieParams} (f : Forest H) : Prop :=
  ∀ n ∈ f.nodes, ∀ m ∈ f.nodes, n.hash = m.hash → n = m

/-- The invariant of the traversal: the records `nodes` are rebuilt, without
error, to the nodes `built`, which are consistent and have the recorded
hashes. -/
structure Good {H : TrieParams} (nodes : List (FlatNode H)) (built : List (Node H)) : Prop where
  rebuilt : rebuildNodes [] nodes = .ok built
  length : built.length = nodes.length
  consistent : ∀ n : Node H, n ∈ built → n.consistent = true
  hashes : ∀ (i : Nat) (r : FlatNode H), nodes[i]? = some r →
    ∃ n : Node H, built[i]? = some n ∧ n.hash = r.hash

/-- The hashes of the examples: the content itself. -/
inductive TermHash where
  | empty
  | leaf (path : TriePath) (payload : Payload)
  | branch (left right : TermHash) (depth : Nat)
  deriving DecidableEq, Repr

/-- Trie parameters for the examples: paths of two bits, and the hash of a
node is its content. -/
@[reducible] def exampleParams : TrieParams where
  Hash := TermHash
  decEq := inferInstance
  emptyHash := .empty
  hashLeaf := .leaf
  hashBranch := .branch
  pathWidth := 2

/-- A payload of the examples, with the given value. -/
def valuePayload (value : List Byte) : Payload :=
  { Key := { KeyParts := [] }, Value := value }

instance {H : TrieParams} (f : Forest H) : Decidable f.contentAddressed := by
  unfold Forest.contentAddressed
  exact inferInstance

/-- A trie of the examples: two writes to the empty trie. -/
def exampleTrie1 : Trie exampleParams :=
  { root := Node.update 2 0 .empty
      [([false, false], valuePayload [1]), ([true, false], valuePayload [2])] }

/-- A trie of the examples: one more write to `exampleTrie1`, with which it
shares its left sub-tree. -/
def exampleTrie2 : Trie exampleParams :=
  { root := Node.update 2 0 exampleTrie1.root [([true, true], valuePayload [3])] }

/-- A forest of the examples: the two example tries and the empty trie. -/
def exampleForest : Forest exampleParams :=
  (((Forest.New exampleParams).Add exampleTrie1 none .empty).Add exampleTrie2 none
    .empty).Add (Trie.NewEmpty exampleParams) none .empty

/-- Trie parameters for the examples with a digest of fixed size: the hashes
are the numbers below 251, and paths have two bits. -/
@[reducible] def digestParams : TrieParams where
  Hash := Fin 251
  decEq := inferInstance
  emptyHash := 0
  hashLeaf := fun path payload =>
    Fin.ofNat (1 + 3 * path.foldl (fun acc b => 2 * acc + (if b then 1 else 0)) 1
      + payload.Value.foldl (fun acc b => 31 * acc + b.val) 7)
  hashBranch := fun left right depth => Fin.ofNat (17 * left.val + 29 * right.val + depth + 5)
  pathWidth := 2

/-- A forest of the examples over the digest of fixed size: a trie of two
writes, the trie of one more write to it, and the empty trie. -/
def digestForest : Forest digestParams :=
  (((Forest.New digestParams).Add
      { root := Node.update 2 0 .empty
          [([false, false], valuePayload [1]), ([true, false], valuePayload [2])] } none 0).Add
      { root := Node.update 2 0
          (Node.update 2 0 .empty
            [([false, false], valuePayload [1]), ([true, false], valuePayload [2])])
          [([true, true], valuePayload [3])] } none 0).Add
    (Trie.NewEmpty digestParams) none 0

/-! ## Lemmas on the readers -/

theorem readUint16_append (n : Nat) (h : n < 65536) (rest : List Byte) :
    readUint16 (appendUint16 n ++ rest) = .ok (n, rest) := by
  simp only [appendUint16, readUint16, List.cons_append, List.nil_append]
  congr 2
  omega

theorem readUint32_append (n : Nat) (h : n < 4294967296) (rest : List Byte) :
    readUint32 (appendUint32 n ++ rest) = .ok (n, rest) := by
  simp only [appendUint32, readUint32, List.cons_append, List.nil_append]
  congr 2
  omega

theorem readSlice_append (bs rest : List Byte) :
    readSlice bs.length (bs ++ rest) = .ok (bs, rest) := by
  simp [readSlice]

theorem readSlice_short (size : Nat) (input : List Byte) (h : input.length < size) :
    readSlice size input = .error .truncated := by
  simp [readSlice, h]

theorem readShortData_append (blob rest : List Byte) (h : blob.length < 65536) :
    readShortData (appendUint16 blob.length ++ (blob ++ rest)) = .ok (blob, rest) := by
  simp only [readShortData, readUint16_append _ h, readSlice_append]

theorem readPairs_encodePairs (keyLen : Nat) (rest : List Byte) :
    ∀ pairs : List (List Byte × List Byte),
      (∀ p ∈ pairs, p.1.length = keyLen) → (∀ p ∈ pairs, p.2.length < 4294967296) →
      readPairs keyLen pairs.length (encodePairs pairs ++ rest) = .ok (pairs, rest)
  | [], _, _ => by simp [readPairs, encodePairs]
  | p :: ps, hk, hv => by
    have hk1 : p.1.length = keyLen := hk p (List.mem_cons_self _ _)
    have hv1 : p.2.length < 4294967296 := hv p (List.mem_cons_self _ _)
    have ih := readPairs_encodePairs keyLen rest ps
      (fun q hq => hk q (List.mem_cons_of_mem _ hq))
      (fun q hq => hv q (List.mem_cons_of_mem _ hq))
    simp only [List.length_cons, readPairs, encodePairs, List.append_assoc]
    rw [← hk1, readSlice_append]
    simp only [readUint32_append _ hv1, readSlice_append]
    rw [hk1, ih]

theorem decodeTrieUpdate_encode (rootHash : List Byte) (pairs : List (List Byte × List Byte))
    (hL : rootHash.length < 65536) (hN : pairs.length < 4294967296)
    (hK : ∀ p ∈ pairs, p.1.length = keyLength pairs) (hKb : keyLength pairs < 65536)
    (hV : ∀ p ∈ pairs, p.2.length < 4294967296) :
    decodeTrieUpdate (appendUint16 rootHash.length ++ rootHash
      ++ appendUint32 pairs.length ++ appendUint16 (keyLength pairs) ++ encodePairs pairs)
      = .ok { rootHash := rootHash, pairs := pairs } := by
  have hp := readPairs_encodePairs (keyLength pairs) [] pairs hK hV
  rw [List.append_nil] at hp
  simp only [decodeTrieUpdate, List.append_assoc, readShortData_append _ _ hL,
    readUint32_append _ hN, readUint16_append _ hKb, hp]

/-- On an input of at least four bytes `Decode` reads the tag and the rest of
the record without a panic. -/
theorem Decode_head (L : FlowGo) (operation : Operation) (rest : List Byte)
    (h : 3 ≤ rest.length) :
    Decode L (operation :: rest) =
      if operation = OperationUpdate then
        some { operation := operation, rootHash := L.zeroRootHash,
               update := (L.DecodeTrieUpdate rest).1,
               err := (L.DecodeTrieUpdate rest).2.map Error.lib }
      else if operation = OperationDelete then
        match (L.ReadShortData rest).2.2 with
        | some e =>
          some { operation := operation, rootHash := L.zeroRootHash, update := none,
                 err := some (.wrapf "cannot read state commitment: %w" (.lib e)) }
        | none =>
          match (L.ToRootHash (L.ReadShortData rest).1).2 with
          | some e =>
            some { operation := operation, rootHash := (L.ToRootHash (L.ReadShortData rest).1).1,
                   update := none, err := some (.wrapf "invalid root hash: %w" (.lib e)) }
          | none =>
            some { operation := operation, rootHash := (L.ToRootHash (L.ReadShortData rest).1).1,
                   update := none, err := none }
      else
        some { operation := operation, rootHash := L.zeroRootHash, update := none,
               err := some (errUnknownOperation operation) } := by
  have h4 : ¬ (rest.length + 1 < 4) := by omega
  simp only [Decode, List.length_cons, h4, if_false, sliceFrom, List.getElem?_cons_zero,
    List.drop_succ_cons, List.drop_zero, Nat.le_add_left, if_true]

/-- On an input shorter than four bytes `Decode` returns the too-short error
before any read. -/
theorem Decode_of_length_lt (L : FlowGo) (data : List Byte) (h : data.length < 4) :
    Decode L data = some { operation := 0, rootHash := L.zeroRootHash, update := none,
                           err := some (errTooShort data) } := by
  simp [Decode, h]

theorem errTooShort_ne_errUnknownOperation {E : Type} (data : List Byte) (operation : Operation) :
    (errTooShort data : Error E) ≠ errUnknownOperation operation := by
  intro h
  simp only [errTooShort, errUnknownOperation, Error.errorf.injEq] at h
  have h2 := congrArg String.data h
  simp only [String.data_append] at h2
  have h3 := congrArg List.head? h2
  simp at h3

/-! ## `Decode`: rejected inputs -/

/-- C1: on an input shorter than four bytes `Decode` returns the too-short
error with the zero operation, the zero root hash and a nil update, whatever
the first byte and whatever the nested decoders are (the result is the same
when the three library functions are replaced by any others, so none of them
is consulted); the error is never the unknown-operation error. -/
theorem Decode_too_short (L : FlowGo) (data : List Byte) (h : data.length < 4) :
    Decode L data = some { operation := 0, rootHash := L.zeroRootHash, update := none,
                           err := some (errTooShort data) }
    ∧ (∀ f g k, Decode { L with DecodeTrieUpdate := f, ReadShortData := g, ToRootHash := k } data
        = Decode L data)
    ∧ ∀ operation : Operation,
        (errTooShort data : Error L.LibError) ≠ errUnknownOperation operation := by
  refine ⟨Decode_of_length_lt L data h, ?_,
    fun operation => errTooShort_ne_errUnknownOperation data operation⟩
  intro f g k
  simp [Decode, h]

/-- Witness of C1: the three-byte input with tag 3 is reported as too short. -/
theorem Decode_too_short_witness :
    Decode (specFlowGo acceptAll) [3, 0, 0] =
      some { operation := 0, rootHash := [], update := none,
             err := some (.errorf
               "data corrupted, too short to represent operation - hexencoded data: 030000") } :=
  (Decode_too_short (specFlowGo acceptAll) [3, 0, 0] (by decide)).1

/-- C2: on an input of at least four bytes whose first byte is neither 1 nor 2
`Decode` returns the unknown-operation error for that byte, a nil update and
the zero root hash; conversely, whenever `Decode` returns an unknown-operation
error the input has at least four bytes and its first byte is neither 1 nor
2. -/
theorem Decode_unknown_operation (L : FlowGo) (data : List Byte) :
    (∀ operation rest, data = operation :: rest → 3 ≤ rest.length →
        operation ≠ OperationUpdate → operation ≠ OperationDelete →
        Decode L data = some { operation := operation, rootHash := L.zeroRootHash,
                               update := none, err := some (errUnknownOperation operation) })
    ∧ (∀ r operation, Decode L data = some r → r.err = some (errUnknownOperation operation) →
        4 ≤ data.length ∧ ∃ tag rest, data = tag :: rest ∧ tag ≠ OperationUpdate
          ∧ tag ≠ OperationDelete) := by
  constructor
  · intro operation rest hd hlen hu hdel
    subst hd
    rw [Decode_head L operation rest hlen]
    simp [hu, hdel]
  · intro r operation hr herr
    by_cases hshort : data.length < 4
    · rw [Decode_of_length_lt L data hshort] at hr
      cases hr
      simp only [Option.some.injEq] at herr
      exact absurd herr (errTooShort_ne_errUnknownOperation data operation)
    · refine ⟨by omega, ?_⟩
      cases data with
      | nil => simp at hshort
      | cons tag rest =>
        have hlen : 3 ≤ rest.length := by simp only [List.length_cons] at hshort; omega
        refine ⟨tag, rest, rfl, ?_, ?_⟩
        · intro htag
          rw [Decode_head L tag rest hlen, if_pos htag] at hr
          cases hr
          simp only [errUnknownOperation] at herr
          cases hlib : (L.DecodeTrieUpdate rest).2 <;> simp [hlib] at herr
        · intro htag
          have hne : tag ≠ OperationUpdate := by rw [htag]; decide
          rw [Decode_head L tag rest hlen, if_neg hne, if_pos htag] at hr
          cases hrs : (L.ReadShortData rest).2.2 with
          | some e =>
            rw [hrs] at hr
            cases hr
            simp [errUnknownOperation] at herr
          | none =>
            rw [hrs] at hr
            cases hth : (L.ToRootHash (L.ReadShortData rest).1).2 with
            | some e =>
              rw [hth] at hr
              cases hr
              simp [errUnknownOperation] at herr
            | none =>
              rw [hth] at hr
              cases hr
              simp at herr

/-- Witness of C2: the four-byte input with tag 3 is an unknown operation. -/
theorem Decode_unknown_operation_witness :
    Decode (specFlowGo acceptAll) [3, 0, 0, 0] =
      some { operation := 3, rootHash := [], update := none,
             err := some (.errorf "unknown operation type, given: 3") } :=
  (Decode_unknown_operation (specFlowGo acceptAll) [3, 0, 0, 0]).1 3 [0, 0, 0] rfl
    (by decide) (by decide) (by decide)

/-! ## `Decode`: records -/

/-- C3: for every root hash `h` (a non-empty byte string of fewer than 65536
bytes that `ledger.ToRootHash` accepts), the Delete record made of the tag 2,
the big-endian `uint16` length of `h` and the bytes of `h` decodes to the
delete operation, the root hash `h`, no update and no error; bytes that follow
the root hash are not read. -/
theorem Decode_delete_record (valid : List Byte → Bool) (h trailing : List Byte)
    (hvalid : valid h = true) (hpos : 0 < h.length) (hlen : h.length < 65536) :
    Decode (specFlowGo valid) (Encode (.Delete h)) =
      some { operation := OperationDelete, rootHash := h, update := none, err := none }
    ∧ Decode (specFlowGo valid) (Encode (.Delete h) ++ trailing) =
      some { operation := OperationDelete, rootHash := h, update := none, err := none } := by
  have key : ∀ rest : List Byte,
      Decode (specFlowGo valid) (OperationDelete :: (appendUint16 h.length ++ (h ++ rest))) =
        some { operation := OperationDelete, rootHash := h, update := none, err := none } := by
    intro rest
    have h3 : 3 ≤ (appendUint16 h.length ++ (h ++ rest)).length := by
      simp [appendUint16]; omega
    rw [Decode_head _ _ _ h3]
    have hne : OperationDelete ≠ OperationUpdate := by decide
    simp only [if_neg hne, if_true, readShortData_append _ _ hlen, hvalid]
  constructor
  · have := key []
    simpa [Encode] using this
  · have := key trailing
    simpa [Encode] using this

/-- Witness of C3: a Delete record with a 32-byte root hash. -/
theorem Decode_delete_record_witness :
    Decode (specFlowGo accept32) (Encode (.Delete (List.replicate 32 7))) =
      some { operation := OperationDelete, rootHash := List.replicate 32 7, update := none,
             err := none }
    ∧ Decode (specFlowGo accept32) (Encode (.Delete (List.replicate 32 7)) ++ [1, 2]) =
      some { operation := OperationDelete, rootHash := List.replicate 32 7, update := none,
             err := none } :=
  Decode_delete_record accept32 (List.replicate 32 7) [1, 2] (by decide) (by decide) (by decide)

/-- C4 (counterexample): the Update record of the root hash `[7]` with no pair
does not decode to the triple of the claim: the root-hash result of `Decode` is
not the encoded root hash. -/
theorem Decode_update_rootHash_counterexample :
    Decode (specFlowGo acceptAll) (Encode (.Update [7] [])) ≠
      some { operation := OperationUpdate, rootHash := [7],
             update := some { rootHash := [7], pairs := [] }, err := none } := by
  decide

/-- C4 (amended): for every Update record (a root hash of fewer than 65536
bytes, fewer than 2^32 pairs whose keys share one length below 65536 and whose
values have fewer than 2^32 bytes), `Decode` of its encoding returns without
error the update operation and an update equal to the original, root hash and
pairs; the root-hash result of `Decode` itself is the zero value. -/
theorem Decode_update_roundtrip (valid : List Byte → Bool) (rootHash : List Byte)
    (pairs : List (List Byte × List Byte))
    (hL : rootHash.length < 65536) (hN : pairs.length < 4294967296)
    (hK : ∀ p ∈ pairs, p.1.length = keyLength pairs) (hKb : keyLength pairs < 65536)
    (hV : ∀ p ∈ pairs, p.2.length < 4294967296) :
    Decode (specFlowGo valid) (Encode (.Update rootHash pairs)) =
      some { operation := OperationUpdate, rootHash := [],
             update := some { rootHash := rootHash, pairs := pairs }, err := none } := by
  have h3 : 3 ≤ (appendUint16 rootHash.length ++ rootHash ++ appendUint32 pairs.length
      ++ appendUint16 (keyLength pairs) ++ encodePairs pairs).length := by
    simp [appendUint16, appendUint32]; omega
  simp only [Encode]
  rw [Decode_head _ _ _ h3]
  simp only [if_true, decodeTrieUpdate_encode rootHash pairs hL hN hK hKb hV]
  rfl

/-- Witness of C4 (amended): an Update record with two pairs, and the
zero-pair Update record. -/
theorem Decode_update_roundtrip_witness :
    Decode (specFlowGo accept32) (Encode (.Update [7, 8] [([1], [2, 3]), ([4], [])])) =
      some { operation := OperationUpdate, rootHash := [],
             update := some { rootHash := [7, 8], pairs := [([1], [2, 3]), ([4], [])] },
             err := none }
    ∧ Decode (specFlowGo accept32) (Encode (.Update [7, 8] [])) =
      some { operation := OperationUpdate, rootHash := [],
             update := some { rootHash := [7, 8], pairs := [] }, err := none } :=
  ⟨Decode_update_roundtrip accept32 [7, 8] [([1], [2, 3]), ([4], [])] (by decide) (by decide)
      (by decide) (by decide) (by decide),
   Decode_update_roundtrip accept32 [7, 8] [] (by decide) (by decide) (by decide) (by decide)
      (by decide)⟩

/-- C5: on an input of at least four bytes whose first byte is 1, `Decode`
returns the update operation, and its update and error are the update and the
error of the trie-update sub-decoder applied to the input without its first
byte; it succeeds exactly when the sub-decoder does. -/
theorem Decode_update_delegates (L : FlowGo) (data : List Byte) (h4 : 4 ≤ data.length)
    (h0 : data.head? = some OperationUpdate) :
    ∃ r, Decode L data = some r ∧ r.operation = OperationUpdate
      ∧ r.update = (L.DecodeTrieUpdate (data.drop 1)).1
      ∧ r.err = (L.DecodeTrieUpdate (data.drop 1)).2.map Error.lib
      ∧ (r.err = none ↔ (L.DecodeTrieUpdate (data.drop 1)).2 = none) := by
  cases data with
  | nil => simp at h4
  | cons tag rest =>
    have hlen : 3 ≤ rest.length := by simp only [List.length_cons] at h4; omega
    have htag : tag = OperationUpdate := by simpa using h0
    subst htag
    refine ⟨{ operation := OperationUpdate, rootHash := L.zeroRootHash,
              update := (L.DecodeTrieUpdate rest).1,
              err := (L.DecodeTrieUpdate rest).2.map Error.lib }, ?_, rfl, rfl, rfl, ?_⟩
    · rw [Decode_head L _ rest hlen, if_pos rfl]
    · simp

/-- Witness of C5: a four-byte Update record, on which the sub-decoder (and so
`Decode`) fails. -/
theorem Decode_update_delegates_witness :
    ∃ r, Decode (specFlowGo acceptAll) [1, 0, 0, 0] = some r ∧ r.operation = OperationUpdate
      ∧ r.update = ((specFlowGo acceptAll).DecodeTrieUpdate (List.drop 1 [1, 0, 0, 0])).1
      ∧ r.err = ((specFlowGo acceptAll).DecodeTrieUpdate (List.drop 1 [1, 0, 0, 0])).2.map
          Error.lib
      ∧ (r.err = none ↔
          ((specFlowGo acceptAll).DecodeTrieUpdate (List.drop 1 [1, 0, 0, 0])).2 = none) :=
  Decode_update_delegates (specFlowGo acceptAll) [1, 0, 0, 0] (by decide) (by decide)

/-- C6 (counterexample): on the four-byte Update record `[1, 0, 0, 0]` the
sub-decoder fails with a truncation error, and the error of `Decode` is that
error itself: it is not an error, other than the nested one, from which the
nested one is unwrapped. -/
theorem Decode_update_error_bare_counterexample :
    (specFlowGo acceptAll).DecodeTrieUpdate [0, 0, 0] = (none, some .truncated)
    ∧ Decode (specFlowGo acceptAll) [1, 0, 0, 0] =
        some { operation := OperationUpdate, rootHash := [], update := none,
               err := some (.lib .truncated) }
    ∧ ¬ ∃ r e, Decode (specFlowGo acceptAll) [1, 0, 0, 0] = some r ∧ r.err = some e
        ∧ e ≠ .lib .truncated ∧ e.unwrap = some (.lib .truncated) := by
  refine ⟨by decide, by decide, ?_⟩
  rintro ⟨r, e, hr, he, hne, -⟩
  have hd : Decode (specFlowGo acceptAll) [1, 0, 0, 0] =
      some { operation := OperationUpdate, rootHash := [], update := none,
             err := some (.lib .truncated) } := by decide
  rw [hd] at hr
  cases hr
  simp only [Option.some.injEq] at he
  exact hne he.symm

/-- C6 (amended): on an input of at least four bytes, when a nested decoder
fails `Decode` returns a non-nil error that holds the nested error: for a
Delete record the error of the short-data reader, or else of the root-hash
conversion, wrapped with added context; for an Update record the error of the
trie-update sub-decoder as it is, without added context. -/
theorem Decode_nested_error (L : FlowGo) (tag : Operation) (rest : List Byte)
    (hlen : 3 ≤ rest.length) :
    ∃ r, Decode L (tag :: rest) = some r
      ∧ (∀ e, tag = OperationUpdate → (L.DecodeTrieUpdate rest).2 = some e →
          r.err = some (.lib e))
      ∧ (∀ e, tag = OperationDelete → (L.ReadShortData rest).2.2 = some e →
          r.err = some (.wrapf "cannot read state commitment: %w" (.lib e))
          ∧ r.err.bind Error.unwrap = some (.lib e))
      ∧ (∀ e, tag = OperationDelete → (L.ReadShortData rest).2.2 = none →
          (L.ToRootHash (L.ReadShortData rest).1).2 = some e →
          r.err = some (.wrapf "invalid root hash: %w" (.lib e))
          ∧ r.err.bind Error.unwrap = some (.lib e)) := by
  have hne : OperationDelete ≠ OperationUpdate := by decide
  rw [Decode_head L tag rest hlen]
  by_cases hu : tag = OperationUpdate
  · subst hu
    refine ⟨_, if_pos rfl, ?_, ?_, ?_⟩
    · intro e _ he
      simp [he]
    · intro e h
      exact absurd h.symm hne
    · intro e h
      exact absurd h.symm hne
  · by_cases hd : tag = OperationDelete
    · subst hd
      rw [if_neg hne, if_pos rfl]
      cases hrs : (L.ReadShortData rest).2.2 with
      | some e1 =>
        refine ⟨_, rfl, fun e h => absurd h hne, ?_, ?_⟩
        · intro e _ he
          cases he
          exact ⟨rfl, rfl⟩
        · intro e _ he
          cases he
      | none =>
        cases hth : (L.ToRootHash (L.ReadShortData rest).1).2 with
        | some e2 =>
          refine ⟨_, rfl, fun e h => absurd h hne, ?_, ?_⟩
          · intro e _ he
            cases he
          · intro e _ _ he
            cases he
            exact ⟨rfl, rfl⟩
        | none =>
          refine ⟨_, rfl, fun e h => absurd h hne, ?_, ?_⟩
          · intro e _ he
            cases he
          · intro e _ _ he
            cases he
    · rw [if_neg hu, if_neg hd]
      exact ⟨_, rfl, fun e h => absurd h hu, fun e h => absurd h hd, fun e h => absurd h hd⟩

/-- Witness of C6 (amended): a Delete record whose declared root-hash length
exceeds the bytes that follow. -/
theorem Decode_nested_error_witness :
    ∃ r, Decode (specFlowGo acceptAll) [2, 0, 5, 9] = some r
      ∧ r.err = some (.wrapf "cannot read state commitment: %w" (.lib .truncated))
      ∧ r.err.bind Error.unwrap = some (.lib .truncated) := by
  obtain ⟨r, hr, -, h2, -⟩ := Decode_nested_error (specFlowGo acceptAll) 2 [0, 5, 9] (by decide)
  exact ⟨r, hr, h2 .truncated rfl (by decide)⟩

/-! ## `Decode`: totality and truncated records -/

theorem take_append_of_length_le {α : Type} (l₁ l₂ : List α) (n : Nat) (h : l₁.length ≤ n) :
    (l₁ ++ l₂).take n = l₁ ++ l₂.take (n - l₁.length) := by
  rw [List.take_append_eq_append_take, List.take_of_length_le h]

theorem length_take_lt {α : Type} (l : List α) (n k : Nat) (h : n < k) :
    (l.take n).length < k := by
  rw [List.length_take]
  omega

theorem readUint16_short (input : List Byte) (h : input.length < 2) :
    readUint16 input = .error .truncated := by
  match input, h with
  | [], _ => rfl
  | [_], _ => rfl
  | _ :: _ :: _, h => simp only [List.length_cons] at h; omega

theorem readUint32_short (input : List Byte) (h : input.length < 4) :
    readUint32 input = .error .truncated := by
  match input, h with
  | [], _ => rfl
  | [_], _ => rfl
  | [_, _], _ => rfl
  | [_, _, _], _ => rfl
  | _ :: _ :: _ :: _ :: _, h => simp only [List.length_cons] at h; omega

theorem length_appendUint16 (n : Nat) : (appendUint16 n).length = 2 := rfl

theorem length_appendUint32 (n : Nat) : (appendUint32 n).length = 4 := rfl

/-- Reading a length-prefixed blob from a strict part of its encoding followed
by more bytes: a truncation error when the part ends inside the blob, and the
blob with the rest of the part otherwise. -/
theorem readShortData_take (blob rest : List Byte) (n : Nat) (h : blob.length < 65536) :
    readShortData ((appendUint16 blob.length ++ (blob ++ rest)).take n) =
      if n < 2 + blob.length then .error .truncated
      else .ok (blob, rest.take (n - (2 + blob.length))) := by
  by_cases h2 : n < 2
  · have hlt : n < 2 + blob.length := by omega
    rw [if_pos hlt]
    simp only [readShortData, readUint16_short _ (length_take_lt _ n 2 h2)]
  · rw [take_append_of_length_le _ _ n (by rw [length_appendUint16]; omega), length_appendUint16]
    simp only [readShortData, readUint16_append _ h]
    by_cases hb : n - 2 < blob.length
    · have hlt : n < 2 + blob.length := by omega
      rw [if_pos hlt, readSlice_short _ _ (length_take_lt _ _ _ hb)]
    · have hge : ¬ n < 2 + blob.length := by omega
      rw [if_neg hge, take_append_of_length_le _ _ _ (by omega), readSlice_append]
      congr 3
      omega

/-- Reading the declared number of pairs from a strict part of their encoding
is a truncation error. -/
theorem readPairs_take (keyLen : Nat) :
    ∀ (pairs : List (List Byte × List Byte)) (n : Nat),
      (∀ p ∈ pairs, p.1.length = keyLen) → (∀ p ∈ pairs, p.2.length < 4294967296) →
      n < (encodePairs pairs).length →
      readPairs keyLen pairs.length ((encodePairs pairs).take n) = .error .truncated
  | [], n, _, _, hn => by simp [encodePairs] at hn
  | p :: ps, n, hk, hv, hn => by
    have hk1 : p.1.length = keyLen := hk p (List.mem_cons_self _ _)
    have hv1 : p.2.length < 4294967296 := hv p (List.mem_cons_self _ _)
    have ih := fun m => readPairs_take keyLen ps m
      (fun q hq => hk q (List.mem_cons_of_mem _ hq))
      (fun q hq => hv q (List.mem_cons_of_mem _ hq))
    simp only [encodePairs, List.append_assoc, List.length_append, length_appendUint32] at hn
    simp only [List.length_cons, readPairs, encodePairs, List.append_assoc]
    by_cases h1 : n < keyLen
    · rw [readSlice_short _ _ (length_take_lt _ _ _ h1)]
    · rw [take_append_of_length_le _ _ n (by omega), ← hk1, readSlice_append]
      simp only []
      by_cases h2 : n - p.1.length < 4
      · rw [readUint32_short _ (length_take_lt _ _ _ h2)]
      · rw [take_append_of_length_le _ _ _ (by rw [length_appendUint32]; omega),
          length_appendUint32, readUint32_append _ hv1]
        simp only []
        by_cases h3 : n - p.1.length - 4 < p.2.length
        · rw [readSlice_short _ _ (length_take_lt _ _ _ h3)]
        · rw [take_append_of_length_le _ _ _ (by omega), readSlice_append]
          simp only []
          rw [hk1, ih _ (by omega)]

/-- The trie-update sub-decoder on a strict part of the body of a well-formed
Update record is a truncation error. -/
theorem decodeTrieUpdate_take (rootHash : List Byte) (pairs : List (List Byte × List Byte))
    (n : Nat) (hw : (Record.Update rootHash pairs).wellFormed)
    (hn : n < (appendUint16 rootHash.length ++ rootHash ++ appendUint32 pairs.length
      ++ appendUint16 (keyLength pairs) ++ encodePairs pairs).length) :
    decodeTrieUpdate ((appendUint16 rootHash.length ++ rootHash ++ appendUint32 pairs.length
      ++ appendUint16 (keyLength pairs) ++ encodePairs pairs).take n) = .error .truncated := by
  obtain ⟨hL, hN, hK, hKb, hV⟩ := hw
  simp only [List.append_assoc, List.length_append, length_appendUint16,
    length_appendUint32] at hn
  simp only [decodeTrieUpdate, List.append_assoc, readShortData_take _ _ _ hL]
  by_cases h1 : n < 2 + rootHash.length
  · rw [if_pos h1]
  · rw [if_neg h1]
    simp only []
    by_cases h2 : n - (2 + rootHash.length) < 4
    · rw [readUint32_short _ (length_take_lt _ _ _ h2)]
    · rw [take_append_of_length_le _ _ _ (by rw [length_appendUint32]; omega),
        length_appendUint32, readUint32_append _ hN]
      simp only []
      by_cases h3 : n - (2 + rootHash.length) - 4 < 2
      · rw [readUint16_short _ (length_take_lt _ _ _ h3)]
      · rw [take_append_of_length_le _ _ _ (by rw [length_appendUint16]; omega),
          length_appendUint16, readUint16_append _ hKb]
        simp only []
        rw [readPairs_take _ pairs _ hK hV (by omega)]

theorem readSlice_ok (size : Nat) (input blob rest : List Byte)
    (h : readSlice size input = .ok (blob, rest)) :
    blob.length = size ∧ input.length = size + rest.length := by
  unfold readSlice at h
  split at h
  · cases h
  · rename_i hlt
    cases h
    simp only [List.length_take, List.length_drop]
    omega

theorem readUint16_ok (input rest : List Byte) (v : Nat)
    (h : readUint16 input = .ok (v, rest)) : input.length = 2 + rest.length := by
  match input, h with
  | [], h => cases h
  | [_], h => cases h
  | _ :: _ :: _, h =>
    simp only [readUint16] at h
    cases h
    simp only [List.length_cons]
    omega

theorem readUint32_ok (input rest : List Byte) (v : Nat)
    (h : readUint32 input = .ok (v, rest)) : input.length = 4 + rest.length := by
  match input, h with
  | [], h => cases h
  | [_], h => cases h
  | [_, _], h => cases h
  | [_, _, _], h => cases h
  | _ :: _ :: _ :: _ :: _, h =>
    simp only [readUint32] at h
    cases h
    simp only [List.length_cons]
    omega

theorem readShortData_ok (input blob rest : List Byte)
    (h : readShortData input = .ok (blob, rest)) :
    input.length = 2 + blob.length + rest.length := by
  unfold readShortData at h
  split at h
  · cases h
  · rename_i size rest1 h16
    have h1 := readUint16_ok _ _ _ h16
    have h2 := readSlice_ok _ _ _ _ h
    omega

theorem readSlice_error (size : Nat) (input : List Byte) (e : CodecError)
    (h : readSlice size input = .error e) : e = .truncated := by
  unfold readSlice at h
  split at h
  · cases h; rfl
  · cases h

theorem readUint16_error (input : List Byte) (e : CodecError)
    (h : readUint16 input = .error e) : e = .truncated := by
  match input, h with
  | [], h => cases h; rfl
  | [_], h => cases h; rfl
  | _ :: _ :: _, h => simp only [readUint16] at h; cases h

theorem readUint32_error (input : List Byte) (e : CodecError)
    (h : readUint32 input = .error e) : e = .truncated := by
  match input, h with
  | [], h => cases h; rfl
  | [_], h => cases h; rfl
  | [_, _], h => cases h; rfl
  | [_, _, _], h => cases h; rfl
  | _ :: _ :: _ :: _ :: _, h => simp only [readUint32] at h; cases h

theorem readShortData_error (input : List Byte) (e : CodecError)
    (h : readShortData input = .error e) : e = .truncated := by
  unfold readShortData at h
  cases h16 : readUint16 input with
  | error e1 =>
    rw [h16] at h
    cases h
    exact readUint16_error _ _ h16
  | ok v =>
    rw [h16] at h
    exact readSlice_error _ _ _ h

theorem readPairs_error (keyLen : Nat) :
    ∀ (count : Nat) (input : List Byte) (e : CodecError),
      readPairs keyLen count input = .error e → e = .truncated
  | 0, input, e, h => by simp only [readPairs] at h; cases h
  | count + 1, input, e, h => by
    simp only [readPairs] at h
    cases hk : readSlice keyLen input with
    | error e1 =>
      rw [hk] at h
      cases h
      exact readSlice_error _ _ _ hk
    | ok v1 =>
      rw [hk] at h
      simp only [] at h
      cases hl : readUint32 v1.2 with
      | error e2 =>
        rw [hl] at h
        cases h
        exact readUint32_error _ _ hl
      | ok v2 =>
        rw [hl] at h
        simp only [] at h
        cases hv : readSlice v2.1 v2.2 with
        | error e3 =>
          rw [hv] at h
          cases h
          exact readSlice_error _ _ _ hv
        | ok v3 =>
          rw [hv] at h
          simp only [] at h
          cases hp : readPairs keyLen count v3.2 with
          | error e4 =>
            rw [hp] at h
            cases h
            exact readPairs_error keyLen count _ _ hp
          | ok v4 =>
            rw [hp] at h
            cases h

/-- The pairs read are as many as declared, their keys have the declared
length, and they were all within the input. -/
theorem readPairs_ok (keyLen : Nat) :
    ∀ (count : Nat) (input : List Byte) (pairs : List (List Byte × List Byte))
      (rest : List Byte), readPairs keyLen count input = .ok (pairs, rest) →
      pairs.length = count ∧ (∀ p ∈ pairs, p.1.length = keyLen)
        ∧ input.length = pairsSize pairs + rest.length
  | 0, input, pairs, rest, h => by
    simp only [readPairs] at h
    cases h
    simp [pairsSize]
  | count + 1, input, pairs, rest, h => by
    simp only [readPairs] at h
    split at h
    · cases h
    · rename_i key rest1 hkey
      split at h
      · cases h
      · rename_i valueLen rest2 hlen
        split at h
        · cases h
        · rename_i value rest3 hvalue
          split at h
          · cases h
          · rename_i ps rest4 hps
            cases h
            obtain ⟨ih1, ih2, ih3⟩ := readPairs_ok keyLen count rest3 ps rest hps
            have h1 := readSlice_ok _ _ _ _ hkey
            have h2 := readUint32_ok _ _ _ hlen
            have h3 := readSlice_ok _ _ _ _ hvalue
            refine ⟨by simp [ih1], ?_, ?_⟩
            · intro p hp
              rcases List.mem_cons.mp hp with hp | hp
              · rw [hp]; exact h1.1
              · exact ih2 p hp
            · simp only [pairsSize]
              omega

/-- The trie-update sub-decoder either fails with the truncation error or
returns an update all of whose declared sections were within the input. -/
theorem decodeTrieUpdate_cases (data : List Byte) :
    decodeTrieUpdate data = .error .truncated
    ∨ ∃ u, decodeTrieUpdate data = .ok u
        ∧ 2 + u.rootHash.length + 4 + 2 + pairsSize u.pairs ≤ data.length := by
  unfold decodeTrieUpdate
  cases h1 : readShortData data with
  | error e1 =>
    rw [readShortData_error _ _ h1]
    exact Or.inl rfl
  | ok v1 =>
    obtain ⟨rootHash, rest1⟩ := v1
    simp only []
    cases h2 : readUint32 rest1 with
    | error e2 =>
      rw [readUint32_error _ _ h2]
      exact Or.inl rfl
    | ok v2 =>
      obtain ⟨count, rest2⟩ := v2
      simp only []
      cases h3 : readUint16 rest2 with
      | error e3 =>
        rw [readUint16_error _ _ h3]
        exact Or.inl rfl
      | ok v3 =>
        obtain ⟨keyLen, rest3⟩ := v3
        simp only []
        cases h4 : readPairs keyLen count rest3 with
        | error e4 =>
          rw [readPairs_error _ _ _ _ h4]
          exact Or.inl rfl
        | ok v4 =>
          obtain ⟨pairs, rest4⟩ := v4
          right
          refine ⟨_, rfl, ?_⟩
          have a1 := readShortData_ok _ _ _ h1
          have a2 := readUint32_ok _ _ _ h2
          have a3 := readUint16_ok _ _ _ h3
          have a4 := (readPairs_ok keyLen count rest3 pairs rest4 h4).2.2
          simp only
          omega

/-- `Decode` returns on every input: its own reads of `data[0]` and `data[1:]`
are within bounds. -/
theorem Decode_returns (L : FlowGo) (data : List Byte) : ∃ r, Decode L data = some r := by
  by_cases hshort : data.length < 4
  · exact ⟨_, Decode_of_length_lt L data hshort⟩
  · cases data with
    | nil => simp at hshort
    | cons tag rest =>
      have hlen : 3 ≤ rest.length := by simp only [List.length_cons] at hshort; omega
      rw [Decode_head L tag rest hlen]
      split
      · exact ⟨_, rfl⟩
      · split
        · split
          · exact ⟨_, rfl⟩
          · split <;> exact ⟨_, rfl⟩
        · exact ⟨_, rfl⟩

/-- C7: `Decode` is total (for every library and every byte sequence it
returns a result, its own indexing never being out of bounds), and over the
record layout of the specification a truncated record is an error: a record
of tag 1 or 2 whose declared root-hash length exceeds the bytes that follow
yields the truncation error, and so does every strict initial part, of at
least four bytes, of a well-formed Update or Delete record (a shorter part
yields the too-short error), the update being nil in each case; and on every
record of tag 1 or 2 `Decode` either returns the truncation error or has found
every declared section (root hash, pairs, keys, values) within the input, the
only other error being the rejection of the root hash of a Delete record. -/
theorem Decode_total_truncation (valid : List Byte → Bool) :
    (∀ (L : FlowGo) (data : List Byte), ∃ r, Decode L data = some r)
    ∧ (∀ (b0 b1 : Byte) (rest : List Byte), 1 ≤ rest.length →
        rest.length < b0.val * 256 + b1.val →
        Decode (specFlowGo valid) (OperationUpdate :: b0 :: b1 :: rest) =
          some { operation := OperationUpdate, rootHash := [], update := none,
                 err := some (.lib .truncated) }
        ∧ Decode (specFlowGo valid) (OperationDelete :: b0 :: b1 :: rest) =
          some { operation := OperationDelete, rootHash := [], update := none,
                 err := some (.wrapf "cannot read state commitment: %w" (.lib .truncated)) })
    ∧ (∀ (record : Record) (n : Nat), record.wellFormed → n < (Encode record).length →
        Decode (specFlowGo valid) ((Encode record).take n) =
          if n < 4 then
            some { operation := 0, rootHash := [], update := none,
                   err := some (errTooShort ((Encode record).take n)) }
          else
            match record with
            | .Update _ _ =>
              some { operation := OperationUpdate, rootHash := [], update := none,
                     err := some (.lib .truncated) }
            | .Delete _ =>
              some { operation := OperationDelete, rootHash := [], update := none,
                     err := some (.wrapf "cannot read state commitment: %w"
                       (.lib .truncated)) })
    ∧ (∀ rest : List Byte, 3 ≤ rest.length →
        Decode (specFlowGo valid) (OperationUpdate :: rest) =
          some { operation := OperationUpdate, rootHash := [], update := none,
                 err := some (.lib .truncated) }
        ∨ ∃ u : TrieUpdate, Decode (specFlowGo valid) (OperationUpdate :: rest) =
              some { operation := OperationUpdate, rootHash := [], update := some u,
                     err := none }
            ∧ 1 + 2 + u.rootHash.length + 4 + 2 + pairsSize u.pairs
                ≤ (OperationUpdate :: rest).length)
    ∧ (∀ rest : List Byte, 3 ≤ rest.length →
        Decode (specFlowGo valid) (OperationDelete :: rest) =
          some { operation := OperationDelete, rootHash := [], update := none,
                 err := some (.wrapf "cannot read state commitment: %w" (.lib .truncated)) }
        ∨ ∃ h : List Byte, 1 + 2 + h.length ≤ (OperationDelete :: rest).length
            ∧ Decode (specFlowGo valid) (OperationDelete :: rest) =
                if valid h then
                  some { operation := OperationDelete, rootHash := h, update := none,
                         err := none }
                else
                  some { operation := OperationDelete, rootHash := [], update := none,
                         err := some (.wrapf "invalid root hash: %w"
                           (.lib .invalidRootHash)) }) := by
  have hne : OperationDelete ≠ OperationUpdate := by decide
  refine ⟨Decode_returns, ?_, ?_, ?_, ?_⟩
  · intro b0 b1 rest h1 hlt
    have h3 : 3 ≤ (b0 :: b1 :: rest).length := by simp only [List.length_cons]; omega
    have hrs : readShortData (b0 :: b1 :: rest) = .error .truncated := by
      simp only [readShortData, readUint16, readSlice_short _ _ hlt]
    constructor
    · rw [Decode_head _ _ _ h3, if_pos rfl]
      simp only [decodeTrieUpdate, hrs]
      rfl
    · rw [Decode_head _ _ _ h3, if_neg hne, if_pos rfl]
      simp only [hrs]
  · intro record n hw hn
    by_cases h4 : n < 4
    · rw [if_pos h4]
      exact Decode_of_length_lt _ _ (length_take_lt _ _ _ h4)
    · rw [if_neg h4]
      have hn1 : n = (n - 1) + 1 := by omega
      cases record with
      | Update rootHash pairs =>
        simp only [Encode, List.length_cons] at hn ⊢
        rw [hn1, List.take_succ_cons]
        have h3 : 3 ≤ ((appendUint16 rootHash.length ++ rootHash ++ appendUint32 pairs.length
            ++ appendUint16 (keyLength pairs) ++ encodePairs pairs).take (n - 1)).length := by
          rw [List.length_take]; omega
        rw [Decode_head _ _ _ h3, if_pos rfl]
        simp only [decodeTrieUpdate_take rootHash pairs (n - 1) hw (by omega)]
        rfl
      | Delete rootHash =>
        simp only [Encode, List.length_cons] at hn ⊢
        rw [hn1, List.take_succ_cons]
        have h3 : 3 ≤ ((appendUint16 rootHash.length ++ rootHash).take (n - 1)).length := by
          rw [List.length_take]; omega
        rw [Decode_head _ _ _ h3, if_neg hne, if_pos rfl]
        have hrs := readShortData_take rootHash [] (n - 1) hw
        rw [List.append_nil] at hrs
        simp only [List.length_append, length_appendUint16] at hn
        rw [if_pos (by omega)] at hrs
        simp only [hrs]
  · intro rest h3
    rw [Decode_head _ _ _ h3, if_pos rfl]
    rcases decodeTrieUpdate_cases rest with herr | ⟨u, hu, hsize⟩
    · left
      simp only [herr]
      rfl
    · right
      refine ⟨u, ?_, ?_⟩
      · simp only [hu]
        rfl
      · simp only [List.length_cons]
        omega
  · intro rest h3
    rw [Decode_head _ _ _ h3, if_neg hne, if_pos rfl]
    cases hrs : readShortData rest with
    | error e =>
      left
      rw [readShortData_error _ _ hrs] at hrs
      simp only [hrs]
    | ok v =>
      obtain ⟨h, rest1⟩ := v
      right
      have hsize := readShortData_ok _ _ _ hrs
      refine ⟨h, by simp only [List.length_cons]; omega, ?_⟩
      simp only [hrs]
      by_cases hv : valid h = true
      · simp only [hv, if_true]
      · simp only [hv]
        rfl

/-- Witness of C7: the first ten bytes of a fourteen-byte Update record. -/
theorem Decode_total_truncation_witness :
    Decode (specFlowGo accept32) ((Encode (.Update [7] [([1], [2, 3])])).take 10) =
      if 10 < 4 then
        some { operation := 0, rootHash := [], update := none,
               err := some (errTooShort ((Encode (.Update [7] [([1], [2, 3])])).take 10)) }
      else
        some { operation := OperationUpdate, rootHash := [], update := none,
               err := some (.lib .truncated) } :=
  (Decode_total_truncation accept32).2.2.1 (.Update [7] [([1], [2, 3])]) 10 (by decide)
    (by decide)

/-! ## `readRegister` -/

/-- C8: on a cache hit, when the cache holds the register value `v` under the
cache key of `(height, owner, controller, key)`, the function returns `v` and
a nil error, and its only call to a collaborator is the `cache.Get`: no
conversion to a path, no `index.Registers`, no `cache.Set`. -/
theorem readRegister_cache_hit (W : Collaborators) (height : Nat)
    (owner controller key : GoString) (v : RegisterValue)
    (hit : W.cacheGet (cacheKey height owner controller key) = some (.registerValue v)) :
    readRegister W height owner controller key =
      some { value := v, err := none,
             calls := [.cacheGet (cacheKey height owner controller key)] } := by
  simp only [readRegister, hit]

/-- Witness of C8: the cached register of the example collaborators. -/
theorem readRegister_cache_hit_witness :
    readRegister exampleCollaborators 7 [0xab] [] [107] =
      some { value := [1, 2], err := none,
             calls := [.cacheGet (cacheKey 7 [0xab] [] [107])] } :=
  readRegister_cache_hit exampleCollaborators 7 [0xab] [] [107] [1, 2] (by decide)

/-- C9: on a cache miss, when the conversion of the register identifier built
from `(owner, controller, key)` yields the path `p` without error and
`index.Registers(height, [p])` returns the one-element list `[v]` without
error, the function returns `v` and a nil error; its calls are, in order, the
`cache.Get`, the conversion, one `index.Registers` at `height` with the single
path `p`, and one `cache.Set` of `v` under the cache key with the cost
`len(v)`. -/
theorem readRegister_cache_miss (W : Collaborators) (height : Nat)
    (owner controller key : GoString) (p : W.Path) (v : RegisterValue)
    (miss : W.cacheGet (cacheKey height owner controller key) = none)
    (hpath : W.KeyToPath (W.RegisterIDToKey (NewRegisterID owner controller key))
      W.DefaultPathFinderVersion = (p, none))
    (hindex : W.Registers height [p] = ([v], none)) :
    readRegister W height owner controller key =
      some { value := v, err := none,
             calls := [.cacheGet (cacheKey height owner controller key),
                       .keyToPath (W.RegisterIDToKey (NewRegisterID owner controller key))
                         W.DefaultPathFinderVersion,
                       .registers height [p],
                       .cacheSet (cacheKey height owner controller key) v (v.length : Int)] } := by
  simp only [readRegister, miss, hpath, hindex, List.getElem?_cons_zero]

/-- Witness of C9: a register of the example collaborators that is not in the
cache. -/
theorem readRegister_cache_miss_witness :
    readRegister exampleCollaborators 7 [1] [2] [3] =
      some { value := [1], err := none,
             calls := [.cacheGet (cacheKey 7 [1] [2] [3]),
                       .keyToPath (NewRegisterID [1] [2] [3]) 1,
                       .registers 7 [[1, 2, 3]],
                       .cacheSet (cacheKey 7 [1] [2] [3]) [1] 1] } :=
  readRegister_cache_miss exampleCollaborators 7 [1] [2] [3] [1, 2, 3] [1] (by decide)
    (by decide) (by decide)

/-- C10: on a cache miss, if the conversion of the register identifier to a
path fails, the function returns a nil value and an error wrapping the
conversion error, and calls neither the index nor `cache.Set`; if the
conversion succeeds and `index.Registers` fails, it returns a nil value and an
error wrapping the lookup error, and does not call `cache.Set`. -/
theorem readRegister_failure (W : Collaborators) (height : Nat)
    (owner controller key : GoString)
    (miss : W.cacheGet (cacheKey height owner controller key) = none) :
    (∀ e, (W.KeyToPath (W.RegisterIDToKey (NewRegisterID owner controller key))
          W.DefaultPathFinderVersion).2 = some e →
        readRegister W height owner controller key =
          some { value := [],
                 err := some (.wrapf "could not convert key to path: %w" (.lib e)),
                 calls := [.cacheGet (cacheKey height owner controller key),
                           .keyToPath (W.RegisterIDToKey (NewRegisterID owner controller key))
                             W.DefaultPathFinderVersion] })
    ∧ (∀ p e, W.KeyToPath (W.RegisterIDToKey (NewRegisterID owner controller key))
          W.DefaultPathFinderVersion = (p, none) →
        (W.Registers height [p]).2 = some e →
        readRegister W height owner controller key =
          some { value := [],
                 err := some (.wrapf "could not read register: %w" (.lib e)),
                 calls := [.cacheGet (cacheKey height owner controller key),
                           .keyToPath (W.RegisterIDToKey (NewRegisterID owner controller key))
                             W.DefaultPathFinderVersion,
                           .registers height [p]] })
    ∧ (∀ r, readRegister W height owner controller key = some r → r.err ≠ none →
        r.value = [] ∧ ∀ k v c, Call.cacheSet k v c ∉ r.calls) := by
  refine ⟨?_, ?_, ?_⟩
  · intro e he
    simp only [readRegister, miss, he]
  · intro p e hp he
    simp only [readRegister, miss, hp, he]
  · intro r hr herr
    simp only [readRegister, miss] at hr
    split at hr
    · cases hr
      exact ⟨rfl, by simp⟩
    · split at hr
      · cases hr
        exact ⟨rfl, by simp⟩
      · split at hr
        · cases hr
        · cases hr
          exact absurd rfl herr

/-- Witness of C10: with the example collaborators, a register identifier
without a path, and a height without an entry in the index. -/
theorem readRegister_failure_witness :
    readRegister exampleCollaborators 7 [1] [2] [] =
      some { value := [],
             err := some (.wrapf "could not convert key to path: %w" (.lib "empty key")),
             calls := [.cacheGet (cacheKey 7 [1] [2] []),
                       .keyToPath (NewRegisterID [1] [2] []) 1] }
    ∧ readRegister exampleCollaborators 101 [1] [2] [3] =
      some { value := [],
             err := some (.wrapf "could not read register: %w" (.lib "not found")),
             calls := [.cacheGet (cacheKey 101 [1] [2] [3]),
                       .keyToPath (NewRegisterID [1] [2] [3]) 1,
                       .registers 101 [[1, 2, 3]]] } :=
  ⟨(readRegister_failure exampleCollaborators 7 [1] [2] [] (by decide)).1 "empty key"
      (by decide),
   (readRegister_failure exampleCollaborators 101 [1] [2] [3] (by decide)).2.1 [1, 2, 3]
      "not found" (by decide) (by decide)⟩

/-! ## `Index.Trie` -/

theorem derefAll_map_some {Payload : Type} (l : List Payload) :
    derefAll (l.map some) = some l := by
  induction l with
  | nil => rfl
  | cons p ps ih => simp only [List.map_cons, derefAll, ih]

/-- The callback on a batch of payload values whose update succeeds. -/
theorem process_ok (I : Index) (s : LoaderState I.MTrie) (b : List I.Path × List I.Payload)
    (h : (I.NewTrieWithUpdatedRegisters s.tree b.1 b.2 false).2 = none) :
    ∃ s1, process I s (Batch.ofValues b).paths (Batch.ofValues b).payloads = some (s1, none)
      ∧ s1.tree = (I.NewTrieWithUpdatedRegisters s.tree b.1 b.2 false).1
      ∧ s1.processed = (if s.processed + b.1.length ≥ 10000 then 0
          else s.processed + b.1.length) := by
  simp only [process, Batch.ofValues, derefAll_map_some, h]
  by_cases hc : s.processed + b.1.length ≥ 10000
  · simp only [hc, if_true]
    exact ⟨_, rfl, rfl, rfl⟩
  · simp only [hc, if_false]
    exact ⟨_, rfl, rfl, rfl⟩

/-- The callback on a batch of payload values whose update fails. -/
theorem process_error (I : Index) (s : LoaderState I.MTrie) (b : List I.Path × List I.Payload)
    (e : I.LibError) (h : (I.NewTrieWithUpdatedRegisters s.tree b.1 b.2 false).2 = some e) :
    ∃ s1, process I s (Batch.ofValues b).paths (Batch.ofValues b).payloads =
      some (s1, some (.wrapf "could not update trie: %w" (.lib e))) := by
  simp only [process, Batch.ofValues, derefAll_map_some, h]
  exact ⟨_, rfl⟩

/-- The iteration over batches of payload values whose updates all succeed,
followed by any further batches: it reaches those with the tree of the left
fold and the counter of `counterAfter`. -/
theorem IterateLedger_append (I : Index) :
    ∀ (batches : List (List I.Path × List I.Payload)) (s : LoaderState I.MTrie),
      updatesSucceed I s.tree batches = true →
      ∃ s1, (∀ rest, IterateLedger I s (batches.map Batch.ofValues ++ rest)
          = IterateLedger I s1 rest)
        ∧ s1.tree = foldUpdates I s.tree batches
        ∧ s1.processed = counterAfter s.processed (batches.map fun b => b.1.length)
  | [], s, _ => ⟨s, fun _ => rfl, rfl, rfl⟩
  | b :: bs, s, h => by
    simp only [updatesSucceed, Bool.and_eq_true, Option.isNone_iff_eq_none] at h
    obtain ⟨s1, hs1, ht, hp⟩ := process_ok I s b h.1
    obtain ⟨s2, hs2, ht2, hp2⟩ := IterateLedger_append I bs s1 (by rw [ht]; exact h.2)
    refine ⟨s2, fun rest => ?_, ?_, ?_⟩
    · simp only [List.map_cons, List.cons_append, IterateLedger, hs1]
      exact hs2 rest
    · rw [ht2, ht]
      rfl
    · rw [hp2, hp]
      rfl

/-- The iteration stops at a batch whose update fails: the batches after it do
not change the result. -/
theorem IterateLedger_error (I : Index) (s : LoaderState I.MTrie)
    (b : List I.Path × List I.Payload) (e : I.LibError)
    (h : (I.NewTrieWithUpdatedRegisters s.tree b.1 b.2 false).2 = some e) :
    ∃ s1, ∀ rest, IterateLedger I s (Batch.ofValues b :: rest) =
      some (s1, some (.wrapf "could not update trie: %w" (.lib e))) := by
  obtain ⟨s1, hs1⟩ := process_error I s b e h
  exact ⟨s1, fun rest => by simp only [IterateLedger, hs1]⟩

/-- The successful run of `Index.Trie`: the tree of the left fold and the
counter of `counterAfter`. -/
theorem Trie_succeeds (I : Index) (t0 : Option I.MTrie)
    (batches : List (List I.Path × List I.Payload))
    (hinit : I.TrieInitializer = (t0, none))
    (hledger : I.ledger = batches.map Batch.ofValues)
    (hiter : I.iterationError = none)
    (hok : updatesSucceed I t0 batches = true) :
    ∃ r, I.Trie = some r ∧ r.tree = foldUpdates I t0 batches ∧ r.err = none
      ∧ r.processed = counterAfter 0 (batches.map fun b => b.1.length) := by
  obtain ⟨s1, hs1, ht, hp⟩ := IterateLedger_append I batches
    { tree := t0, processed := 0, logs := [.started] } hok
  have hs := hs1 []
  rw [List.append_nil] at hs
  simp only [Index.Trie, hinit, hledger, hs, IterateLedger, hiter, Option.map_none']
  exact ⟨_, rfl, ht, rfl, hp⟩

/-- C11: when the initializer returns the trie `t0` and the ledger iteration
delivers, in order, batches of paths and pointers to payloads whose updates all
succeed, `Index.Trie` returns the trie of the left fold
`t_i = update(t_(i-1), paths_i, payloads_i)` over the payloads pointed to, and
a nil error; with no batch it returns `t0`. -/
theorem Trie_left_fold (I : Index) (t0 : Option I.MTrie)
    (batches : List (List I.Path × List I.Payload))
    (hinit : I.TrieInitializer = (t0, none))
    (hledger : I.ledger = batches.map Batch.ofValues)
    (hiter : I.iterationError = none)
    (hok : updatesSucceed I t0 batches = true) :
    (∃ r, I.Trie = some r ∧ r.tree = foldUpdates I t0 batches ∧ r.err = none)
    ∧ (batches = [] → ∃ r, I.Trie = some r ∧ r.tree = t0 ∧ r.err = none) := by
  obtain ⟨r, hr, ht, he, -⟩ := Trie_succeeds I t0 batches hinit hledger hiter hok
  refine ⟨⟨r, hr, ht, he⟩, fun hnil => ⟨r, hr, ?_, he⟩⟩
  rw [ht, hnil]
  rfl

/-- Witness of C11: two batches on the example index. -/
theorem Trie_left_fold_witness :
    (∃ r, (exampleIndex [Batch.ofValues ([1, 2], [10, 20]), Batch.ofValues ([3], [30])]).Trie
        = some r
      ∧ r.tree = foldUpdates (exampleIndex
          [Batch.ofValues ([1, 2], [10, 20]), Batch.ofValues ([3], [30])]) (some [])
          [([1, 2], [10, 20]), ([3], [30])]
      ∧ r.err = none)
    ∧ (exampleIndex [Batch.ofValues ([1, 2], [10, 20]), Batch.ofValues ([3], [30])]).Trie =
        some { tree := some [(1, 10), (2, 20), (3, 30)], err := none, processed := 3,
               logs := [.started, .aboutToProcess 2, .aboutToProcess 1, .finished] } :=
  ⟨(Trie_left_fold (exampleIndex [Batch.ofValues ([1, 2], [10, 20]), Batch.ofValues ([3], [30])])
      (some []) [([1, 2], [10, 20]), ([3], [30])] rfl rfl rfl (by decide)).1, by decide⟩

/-- C12: if the trie initializer fails, `Index.Trie` returns a nil trie and an
error wrapping the error of the initializer, and no batch is processed; if the
updates of the batches before batch `k` succeed and the update of batch `k`
fails, `Index.Trie` returns a nil trie and an error wrapping the error of the
callback, which wraps the error of the update, and the iteration ends as it
does on the ledger cut after batch `k`: the batches after `k` are not
applied. -/
theorem Trie_aborts (I : Index) :
    (∀ e, I.TrieInitializer.2 = some e →
      I.Trie = some { tree := none,
                      err := some (.wrapf "could not initialize trie: %w" (.lib e)),
                      processed := 0, logs := [.started] })
    ∧ (∀ (t0 : Option I.MTrie) (before after : List (List I.Path × List I.Payload))
        (b : List I.Path × List I.Payload) (e : I.LibError),
        I.TrieInitializer = (t0, none) →
        I.ledger = (before ++ b :: after).map Batch.ofValues →
        updatesSucceed I t0 before = true →
        (I.NewTrieWithUpdatedRegisters (foldUpdates I t0 before) b.1 b.2 false).2 = some e →
        (∃ r, I.Trie = some r ∧ r.tree = none
          ∧ r.err = some (.wrapf "could not iterate ledger: %w"
              (.wrapf "could not update trie: %w" (.lib e))))
        ∧ IterateLedger I { tree := t0, processed := 0, logs := [.started] } I.ledger
            = IterateLedger I { tree := t0, processed := 0, logs := [.started] }
                ((before ++ [b]).map Batch.ofValues)) := by
  constructor
  · intro e he
    simp only [Index.Trie, he]
  · intro t0 before after b e hinit hledger hok hfail
    obtain ⟨s1, hs1, ht, -⟩ := IterateLedger_append I before
      { tree := t0, processed := 0, logs := [.started] } hok
    have hfail1 : (I.NewTrieWithUpdatedRegisters s1.tree b.1 b.2 false).2 = some e := by
      rw [ht]; exact hfail
    obtain ⟨s2, hall⟩ := IterateLedger_error I s1 b e hfail1
    have hrun : ∀ rest : List (List I.Path × List I.Payload),
        IterateLedger I { tree := t0, processed := 0, logs := [.started] }
          ((before ++ b :: rest).map Batch.ofValues) =
        some (s2, some (.wrapf "could not update trie: %w" (.lib e))) := by
      intro rest
      rw [List.map_append, List.map_cons, hs1]
      exact hall _
    refine ⟨⟨{ tree := none,
               err := some (.wrapf "could not iterate ledger: %w"
                 (.wrapf "could not update trie: %w" (.lib e))),
               processed := s2.processed, logs := s2.logs }, ?_, rfl, rfl⟩, ?_⟩
    · simp only [Index.Trie, hinit, hledger, hrun]
    · rw [hledger, hrun after, hrun []]

/-- Witness of C12: an initializer that fails, and a ledger of three batches
whose second update fails. -/
theorem Trie_aborts_witness :
    (failingIndex [Batch.ofValues ([1], [10])]).Trie =
      some { tree := none,
             err := some (.wrapf "could not initialize trie: %w" (.lib "no checkpoint")),
             processed := 0, logs := [.started] }
    ∧ (∃ r, (exampleIndex [Batch.ofValues ([1, 2], [10, 20]), Batch.ofValues ([3], []),
          Batch.ofValues ([4], [40])]).Trie = some r ∧ r.tree = none
        ∧ r.err = some (.wrapf "could not iterate ledger: %w"
            (.wrapf "could not update trie: %w" (.lib "length mismatch")))) :=
  ⟨(Trie_aborts (failingIndex [Batch.ofValues ([1], [10])])).1 "no checkpoint" rfl,
   ((Trie_aborts (exampleIndex [Batch.ofValues ([1, 2], [10, 20]), Batch.ofValues ([3], []),
      Batch.ofValues ([4], [40])])).2 (some []) [([1, 2], [10, 20])] [([4], [40])] ([3], [])
      "length mismatch" rfl rfl (by decide) (by decide)).1⟩

theorem counterAfter_lt (ns : List Nat) :
    ∀ c, c < 10000 → counterAfter c ns < 10000 := by
  induction ns with
  | nil => intro c hc; exact hc
  | cons n ns ih =>
    intro c hc
    simp only [counterAfter]
    apply ih
    split <;> omega

theorem counterAfter_eq_sum (ns : List Nat) :
    ∀ c, c + ns.sum < 10000 → counterAfter c ns = c + ns.sum := by
  induction ns with
  | nil => intro c _; simp [counterAfter]
  | cons n ns ih =>
    intro c hc
    simp only [List.sum_cons] at hc
    have h1 : ¬ (c + n ≥ 10000) := by omega
    simp only [counterAfter, h1, if_false, List.sum_cons]
    rw [ih (c + n) (by omega)]
    omega

/-- The tree and the error of a step of the callback depend on the tree only,
not on the counter or the log. -/
theorem process_tree (I : Index) (s s1 : LoaderState I.MTrie) (paths : List I.Path)
    (payloads : List (Option I.Payload)) (h : s.tree = s1.tree) :
    (process I s paths payloads).map (fun x => (x.1.tree, x.2))
      = (process I s1 paths payloads).map (fun x => (x.1.tree, x.2)) := by
  simp only [process, h]
  cases derefAll payloads with
  | none => rfl
  | some real =>
    simp only []
    cases (I.NewTrieWithUpdatedRegisters s1.tree paths real false).2 with
    | some e => rfl
    | none =>
      simp only []
      split <;> split <;> rfl

/-- The tree and the error of the iteration depend on the tree it starts from
only, not on the counter or the log. -/
theorem IterateLedger_tree (I : Index) :
    ∀ (bs : List (Batch I.Path I.Payload)) (s s1 : LoaderState I.MTrie), s.tree = s1.tree →
      (IterateLedger I s bs).map (fun x => (x.1.tree, x.2))
        = (IterateLedger I s1 bs).map (fun x => (x.1.tree, x.2))
  | [], s, s1, h => by simp only [IterateLedger, Option.map_some', h]
  | b :: bs, s, s1, h => by
    have hp := process_tree I s s1 b.paths b.payloads h
    simp only [IterateLedger]
    cases h1 : process I s b.paths b.payloads with
    | none =>
      cases h2 : process I s1 b.paths b.payloads with
      | none => rfl
      | some v2 => rw [h1, h2] at hp; cases hp
    | some v1 =>
      cases h2 : process I s1 b.paths b.payloads with
      | none => rw [h1, h2] at hp; cases hp
      | some v2 =>
        rw [h1, h2] at hp
        obtain ⟨a1, e1⟩ := v1
        obtain ⟨a2, e2⟩ := v2
        simp only [Option.map_some', Option.some.injEq, Prod.mk.injEq] at hp
        obtain ⟨ht, he⟩ := hp
        subst he
        cases e1 with
        | some e => simp only [Option.map_some', ht]
        | none => exact IterateLedger_tree I bs a1 a2 ht

/-- The counting index on two batches of 10000 paths each. -/
theorem countingIndex_two_batches (paths : List Nat) (h : paths.length = 10000) :
    (countingIndex [Batch.ofValues (paths, []), Batch.ofValues (paths, [])]).Trie =
      some { tree := some 20000, err := none, processed := 0,
             logs := [.started, .aboutToProcess 10000, .processing 10000,
                      .aboutToProcess 10000, .processing 10000, .finished] }
    ∧ paths.length + paths.length = 20000 := by
  constructor
  · simp only [Index.Trie, IterateLedger, process, Batch.ofValues, List.map_nil, derefAll, h]
    rfl
  · omega

/-- C15 (counterexample): on a ledger of two batches of 10000 paths each, the
progress line written after the second batch reports 10000 and the counter
ends at 0, while the paths processed are 20000. -/
theorem Trie_counter_counterexample :
    (countingIndex [Batch.ofValues (List.replicate 10000 0, []),
        Batch.ofValues (List.replicate 10000 0, [])]).Trie =
      some { tree := some 20000, err := none, processed := 0,
             logs := [.started, .aboutToProcess 10000, .processing 10000,
                      .aboutToProcess 10000, .processing 10000, .finished] }
    ∧ (List.replicate 10000 0).length + (List.replicate 10000 0).length = 20000 :=
  countingIndex_two_batches (List.replicate 10000 0) (List.length_replicate 10000 0)

/-- C15 (amended): the counter `processed` is used for reporting only and is
reset to 0, when the progress line is written, each time it reaches 10000:
after the batches have been processed it is `counterAfter 0` of their numbers
of paths, which is below 10000 and is the sum of the numbers of paths as long
as that sum is below 10000.  The trie returned is the left fold of the updates,
and the tree and the error of the iteration are the same from any value of the
counter and any log. -/
theorem Trie_counter (I : Index) (t0 : Option I.MTrie)
    (batches : List (List I.Path × List I.Payload))
    (hinit : I.TrieInitializer = (t0, none))
    (hledger : I.ledger = batches.map Batch.ofValues)
    (hiter : I.iterationError = none)
    (hok : updatesSucceed I t0 batches = true) :
    (∃ r, I.Trie = some r
      ∧ r.processed = counterAfter 0 (batches.map fun b => b.1.length)
      ∧ r.processed < 10000
      ∧ ((batches.map fun b => b.1.length).sum < 10000 →
          r.processed = (batches.map fun b => b.1.length).sum)
      ∧ r.tree = foldUpdates I t0 batches)
    ∧ ∀ (c : Nat) (logs : List LogLine) (bs : List (Batch I.Path I.Payload)),
        (IterateLedger I { tree := t0, processed := c, logs := logs } bs).map
            (fun x => (x.1.tree, x.2))
          = (IterateLedger I { tree := t0, processed := 0, logs := [.started] } bs).map
            (fun x => (x.1.tree, x.2)) := by
  obtain ⟨r, hr, ht, -, hp⟩ := Trie_succeeds I t0 batches hinit hledger hiter hok
  refine ⟨⟨r, hr, hp, ?_, ?_, ht⟩, fun c logs bs => IterateLedger_tree I bs _ _ rfl⟩
  · rw [hp]
    exact counterAfter_lt _ 0 (by decide)
  · intro hsum
    rw [hp, counterAfter_eq_sum _ 0 (by omega)]
    omega

/-- Witness of C15 (amended): two batches of two paths and one path. -/
theorem Trie_counter_witness :
    ∃ r, (exampleIndex [Batch.ofValues ([1, 2], [10, 20]), Batch.ofValues ([3], [30])]).Trie
        = some r
      ∧ r.processed = counterAfter 0 [2, 1]
      ∧ r.processed < 10000
      ∧ (([2, 1] : List Nat).sum < 10000 → r.processed = ([2, 1] : List Nat).sum)
      ∧ r.tree = foldUpdates (exampleIndex
          [Batch.ofValues ([1, 2], [10, 20]), Batch.ofValues ([3], [30])]) (some [])
          [([1, 2], [10, 20]), ([3], [30])] :=
  (Trie_counter (exampleIndex [Batch.ofValues ([1, 2], [10, 20]), Batch.ofValues ([3], [30])])
    (some []) [([1, 2], [10, 20]), ([3], [30])] rfl rfl rfl (by decide)).1

/-! ## `Decode`: the minimum record length -/

/-- `Decode` on a record of tag 1, over the record layout of the
specification. -/
theorem Decode_update_spec (valid : List Byte → Bool) (rest : List Byte)
    (h3 : 3 ≤ rest.length) :
    Decode (specFlowGo valid) (OperationUpdate :: rest) =
      match decodeTrieUpdate rest with
      | .error e =>
        some { operation := OperationUpdate, rootHash := [], update := none,
               err := some (.lib e) }
      | .ok u =>
        some { operation := OperationUpdate, rootHash := [], update := some u, err := none } := by
  rw [Decode_head _ _ _ h3, if_pos rfl]
  cases h : decodeTrieUpdate rest with
  | error e => simp only [h]; rfl
  | ok u => simp only [h]; rfl

/-- `Decode` on a record of tag 2 whose root-hash section cannot be read, over
the record layout of the specification. -/
theorem Decode_delete_spec_error (valid : List Byte → Bool) (rest : List Byte)
    (e : CodecError) (h3 : 3 ≤ rest.length) (hrs : readShortData rest = .error e) :
    Decode (specFlowGo valid) (OperationDelete :: rest) =
      some { operation := OperationDelete, rootHash := [], update := none,
             err := some (.wrapf "cannot read state commitment: %w" (.lib e)) } := by
  have hne : OperationDelete ≠ OperationUpdate := by decide
  rw [Decode_head _ _ _ h3, if_neg hne, if_pos rfl]
  simp only [hrs]

/-- `Decode` on a record of tag 2 whose root-hash section is read, over the
record layout of the specification. -/
theorem Decode_delete_spec_ok (valid : List Byte → Bool) (rest h rest1 : List Byte)
    (h3 : 3 ≤ rest.length) (hrs : readShortData rest = .ok (h, rest1)) :
    Decode (specFlowGo valid) (OperationDelete :: rest) =
      if valid h = true then
        some { operation := OperationDelete, rootHash := h, update := none, err := none }
      else
        some { operation := OperationDelete, rootHash := [], update := none,
               err := some (.wrapf "invalid root hash: %w" (.lib .invalidRootHash)) } := by
  have hne : OperationDelete ≠ OperationUpdate := by decide
  rw [Decode_head _ _ _ h3, if_neg hne, if_pos rfl]
  simp only [hrs]
  by_cases hv : valid h = true
  · rw [if_pos hv]
    simp only [hv, if_true]
  · rw [if_neg hv]
    simp only [hv]
    rfl

/-- A four-byte record is accepted exactly when it is a Delete record whose
root hash, of one byte or of none, is accepted by `ledger.ToRootHash`. -/
theorem Decode_four_bytes (valid : List Byte → Bool) (t a b c : Byte) :
    (∃ r, Decode (specFlowGo valid) [t, a, b, c] = some r ∧ r.err = none) ↔
      t = OperationDelete ∧ a = 0
        ∧ ((b = 1 ∧ valid [c] = true) ∨ (b = 0 ∧ valid [] = true)) := by
  have hne : OperationDelete ≠ OperationUpdate := by decide
  have h3 : 3 ≤ [a, b, c].length := by simp
  by_cases hu : t = OperationUpdate
  · subst hu
    rw [Decode_update_spec valid _ h3]
    constructor
    · rintro ⟨r, hr, herr⟩
      exfalso
      rcases decodeTrieUpdate_cases [a, b, c] with h | ⟨u, _, hsize⟩
      · rw [h] at hr
        cases hr
        cases herr
      · simp only [List.length_cons, List.length_nil] at hsize
        omega
    · rintro ⟨h, -⟩
      exact absurd h.symm hne
  · by_cases hd : t = OperationDelete
    · subst hd
      by_cases hbig : 1 < a.val * 256 + b.val
      · have hrs : readShortData [a, b, c] = .error .truncated := by
          simp only [readShortData, readUint16]
          exact readSlice_short _ _ hbig
        rw [Decode_delete_spec_error valid _ _ h3 hrs]
        constructor
        · rintro ⟨r, hr, herr⟩
          cases hr
          cases herr
        · rintro ⟨-, ha, hb⟩
          exfalso
          have ha0 : a.val = 0 := by rw [ha]; rfl
          rcases hb with ⟨hb, -⟩ | ⟨hb, -⟩
          · have hb1 : b.val = 1 := by rw [hb]; rfl
            omega
          · have hb0 : b.val = 0 := by rw [hb]; rfl
            omega
      · have ha0 : a.val = 0 := by omega
        have ha : a = 0 := Fin.ext ha0
        subst ha
        have hb01 : b.val = 0 ∨ b.val = 1 := by simp only [Fin.val_zero] at hbig; omega
        rcases hb01 with hb0 | hb1
        · have hb : b = 0 := Fin.ext hb0
          subst hb
          have hrs : readShortData [0, 0, c] = .ok ([], [c]) := rfl
          rw [Decode_delete_spec_ok valid _ _ _ h3 hrs]
          by_cases hv : valid [] = true
          · rw [if_pos hv]
            exact ⟨fun _ => ⟨rfl, rfl, Or.inr ⟨rfl, hv⟩⟩, fun _ => ⟨_, rfl, rfl⟩⟩
          · rw [if_neg hv]
            constructor
            · rintro ⟨r, hr, herr⟩
              cases hr
              cases herr
            · rintro ⟨-, -, h⟩
              rcases h with ⟨h, -⟩ | ⟨-, h⟩
              · exact absurd h (by decide)
              · exact absurd h hv
        · have hb : b = 1 := Fin.ext hb1
          subst hb
          have hrs : readShortData [0, 1, c] = .ok ([c], []) := rfl
          rw [Decode_delete_spec_ok valid _ _ _ h3 hrs]
          by_cases hv : valid [c] = true
          · rw [if_pos hv]
            exact ⟨fun _ => ⟨rfl, rfl, Or.inl ⟨rfl, hv⟩⟩, fun _ => ⟨_, rfl, rfl⟩⟩
          · rw [if_neg hv]
            constructor
            · rintro ⟨r, hr, herr⟩
              cases hr
              cases herr
            · rintro ⟨-, -, h⟩
              rcases h with ⟨-, h⟩ | ⟨h, -⟩
              · exact absurd h hv
              · exact absurd h (by decide)
    · rw [Decode_head _ t [a, b, c] h3, if_neg hu, if_neg hd]
      constructor
      · rintro ⟨r, hr, herr⟩
        cases hr
        cases herr
      · rintro ⟨h, -⟩
        exact absurd h hd

/-- On an input of at least four bytes the error of `Decode`, if any, is not
the too-short error. -/
theorem Decode_not_too_short (L : FlowGo) (data : List Byte) (h4 : 4 ≤ data.length) :
    ∃ r, Decode L data = some r ∧ r.err ≠ some (errTooShort data) := by
  cases data with
  | nil => simp at h4
  | cons tag rest =>
    have hlen : 3 ≤ rest.length := by simp only [List.length_cons] at h4; omega
    rw [Decode_head L tag rest hlen]
    by_cases hu : tag = OperationUpdate
    · rw [if_pos hu]
      refine ⟨_, rfl, ?_⟩
      cases (L.DecodeTrieUpdate rest).2 <;> simp [errTooShort]
    · rw [if_neg hu]
      by_cases hd : tag = OperationDelete
      · rw [if_pos hd]
        cases (L.ReadShortData rest).2.2 with
        | some e => exact ⟨_, rfl, by simp [errTooShort]⟩
        | none =>
          cases (L.ToRootHash (L.ReadShortData rest).1).2 with
          | some e => exact ⟨_, rfl, by simp [errTooShort]⟩
          | none => exact ⟨_, rfl, by simp⟩
      · rw [if_neg hd]
        refine ⟨_, rfl, ?_⟩
        intro h
        simp only [Option.some.injEq] at h
        exact errTooShort_ne_errUnknownOperation _ _ h.symm

/-- C14 (counterexample): with a `ledger.ToRootHash` that accepts the root
hashes of 32 bytes and no other, `Decode` accepts no input of four bytes: the
least accepted length is then not 4. -/
theorem Decode_minimum_length_counterexample :
    ¬ ∃ (t a b c : Byte) (r : Decoded (List Byte) TrieUpdate CodecError),
      Decode (specFlowGo accept32) [t, a, b, c] = some r ∧ r.err = none := by
  rintro ⟨t, a, b, c, r, hr, herr⟩
  obtain ⟨-, -, h⟩ := (Decode_four_bytes accept32 t a b c).mp ⟨r, hr, herr⟩
  rcases h with ⟨-, h⟩ | ⟨-, h⟩
  · simp [accept32] at h
  · simp [accept32] at h

/-- C14 (amended): no input shorter than four bytes is accepted by `Decode`,
which returns the too-short error on it, and four bytes is the least length
that passes the length check, whatever the nested decoders.  Over the record
layout of the specification, whether an input of four bytes is accepted is
decided by `ledger.ToRootHash`: it is accepted exactly when it is a Delete
record, of size 0 or 1, whose root hash of that size `ledger.ToRootHash`
accepts; so an accepted input of four bytes exists if and only if
`ledger.ToRootHash` accepts a root hash of at most one byte. -/
theorem Decode_minimum_length :
    (∀ (L : FlowGo) (data : List Byte), data.length < 4 →
      ∃ r, Decode L data = some r ∧ r.err = some (errTooShort data) ∧ r.err ≠ none)
    ∧ (∀ (L : FlowGo) (data : List Byte), 4 ≤ data.length →
      ∃ r, Decode L data = some r ∧ r.err ≠ some (errTooShort data))
    ∧ (∀ (valid : List Byte → Bool) (t a b c : Byte),
        (∃ r, Decode (specFlowGo valid) [t, a, b, c] = some r ∧ r.err = none) ↔
          t = OperationDelete ∧ a = 0
            ∧ ((b = 1 ∧ valid [c] = true) ∨ (b = 0 ∧ valid [] = true)))
    ∧ (∀ valid : List Byte → Bool,
        (∃ (t a b c : Byte) (r : Decoded (List Byte) TrieUpdate CodecError),
          Decode (specFlowGo valid) [t, a, b, c] = some r ∧ r.err = none) ↔
          (valid [] = true ∨ ∃ c : Byte, valid [c] = true)) := by
  refine ⟨?_, Decode_not_too_short, Decode_four_bytes, ?_⟩
  · intro L data h
    exact ⟨_, Decode_of_length_lt L data h, rfl, by simp⟩
  · intro valid
    constructor
    · rintro ⟨t, a, b, c, r, hr, herr⟩
      obtain ⟨-, -, h⟩ := (Decode_four_bytes valid t a b c).mp ⟨r, hr, herr⟩
      rcases h with ⟨-, h⟩ | ⟨-, h⟩
      · exact Or.inr ⟨c, h⟩
      · exact Or.inl h
    · rintro (h | ⟨c, h⟩)
      · obtain ⟨r, hr⟩ := (Decode_four_bytes valid OperationDelete 0 0 0).mpr
          ⟨rfl, rfl, Or.inr ⟨rfl, h⟩⟩
        exact ⟨_, _, _, _, r, hr⟩
      · obtain ⟨r, hr⟩ := (Decode_four_bytes valid OperationDelete 0 1 c).mpr
          ⟨rfl, rfl, Or.inl ⟨rfl, h⟩⟩
        exact ⟨_, _, _, _, r, hr⟩

/-- Witness of C14 (amended): a three-byte input gets the too-short error, and
a four-byte input does not. -/
theorem Decode_minimum_length_witness :
    (∃ r, Decode (specFlowGo accept32) [2, 0, 0] = some r
      ∧ r.err = some (errTooShort [2, 0, 0]) ∧ r.err ≠ none)
    ∧ (∃ r, Decode (specFlowGo accept32) [2, 0, 1, 9] = some r
      ∧ r.err ≠ some (errTooShort [2, 0, 1, 9])) :=
  ⟨Decode_minimum_length.1 (specFlowGo accept32) [2, 0, 0] (by decide),
   Decode_minimum_length.2.1 (specFlowGo accept32) [2, 0, 1, 9] (by decide)⟩

/-! ## `keyToRegisterID` and `DetectFlow` -/

/-- The three outcomes of `keyToRegisterID`: it never indexes a missing key
part; it succeeds on the keys of exactly three parts of the types owner,
controller and key, in this order, with their values; it fails on every other
key with the zero register identifier. -/
theorem keyToRegisterID_cases (F : FlowFinder) (key : Key) :
    (∃ v0 v1 v2, key.KeyParts = [⟨F.KeyPartOwner, v0⟩, ⟨F.KeyPartController, v1⟩,
          ⟨F.KeyPartKey, v2⟩]
        ∧ keyToRegisterID F key = some (NewRegisterID v0 v1 v2, none))
    ∨ ((¬ ∃ v0 v1 v2, key.KeyParts = [⟨F.KeyPartOwner, v0⟩, ⟨F.KeyPartController, v1⟩,
          ⟨F.KeyPartKey, v2⟩])
        ∧ keyToRegisterID F key =
            some (NewRegisterID [] [] [], some (errKeyFormat (F.keyString key)))) := by
  obtain ⟨parts⟩ := key
  match parts with
  | [] => right; exact ⟨by simp, by simp [keyToRegisterID]⟩
  | [_] => right; exact ⟨by simp, by simp [keyToRegisterID]⟩
  | [_, _] => right; exact ⟨by simp, by simp [keyToRegisterID]⟩
  | _ :: _ :: _ :: _ :: _ => right; exact ⟨by simp, by simp [keyToRegisterID]⟩
  | [⟨t0, v0⟩, ⟨t1, v1⟩, ⟨t2, v2⟩] =>
    by_cases h0 : t0 = F.KeyPartOwner
    · by_cases h1 : t1 = F.KeyPartController
      · by_cases h2 : t2 = F.KeyPartKey
        · left
          subst h0 h1 h2
          exact ⟨v0, v1, v2, rfl, by simp [keyToRegisterID]⟩
        · right
          refine ⟨?_, by simp [keyToRegisterID, h0, h1, h2]⟩
          rintro ⟨w0, w1, w2, h⟩
          simp only [Key.mk.injEq, List.cons.injEq, KeyPart.mk.injEq] at h
          exact h2 h.2.2.1.1
      · right
        refine ⟨?_, by simp [keyToRegisterID, h0, h1]⟩
        rintro ⟨w0, w1, w2, h⟩
        simp only [Key.mk.injEq, List.cons.injEq, KeyPart.mk.injEq] at h
        exact h1 h.2.1.1
    · right
      refine ⟨?_, by simp [keyToRegisterID, h0]⟩
      rintro ⟨w0, w1, w2, h⟩
      simp only [Key.mk.injEq, List.cons.injEq, KeyPart.mk.injEq] at h
      exact h0 h.1.1

/-- C19: `keyToRegisterID` never indexes a missing key part (it returns on
every key); it succeeds if and only if the key has exactly three key parts
whose types are, in order, owner, controller and key; on success the owner,
the controller and the key of the register identifier are the values of the
parts 0, 1 and 2; on failure it returns the zero register identifier with a
non-nil error. -/
theorem keyToRegisterID_spec (F : FlowFinder) (key : Key) :
    ∃ id err, keyToRegisterID F key = some (id, err)
      ∧ (err = none ↔ ∃ v0 v1 v2, key.KeyParts =
          [⟨F.KeyPartOwner, v0⟩, ⟨F.KeyPartController, v1⟩, ⟨F.KeyPartKey, v2⟩])
      ∧ (∀ v0 v1 v2, key.KeyParts =
          [⟨F.KeyPartOwner, v0⟩, ⟨F.KeyPartController, v1⟩, ⟨F.KeyPartKey, v2⟩] →
          err = none ∧ id.Owner = v0 ∧ id.Controller = v1 ∧ id.Key = v2)
      ∧ (err ≠ none → id = { Owner := [], Controller := [], Key := [] }
          ∧ err = some (errKeyFormat (F.keyString key))) := by
  rcases keyToRegisterID_cases F key with ⟨v0, v1, v2, hk, hr⟩ | ⟨hk, hr⟩
  · refine ⟨_, _, hr, ⟨fun _ => ⟨v0, v1, v2, hk⟩, fun _ => rfl⟩, ?_, fun h => absurd rfl h⟩
    intro w0 w1 w2 hw
    rw [hk] at hw
    simp only [List.cons.injEq, KeyPart.mk.injEq, true_and, and_true] at hw
    obtain ⟨e0, e1, e2⟩ := hw
    subst e0 e1 e2
    exact ⟨rfl, rfl, rfl, rfl⟩
  · refine ⟨_, _, hr, ⟨fun h => (by cases h), fun h => absurd h hk⟩, ?_, fun _ => ⟨rfl, rfl⟩⟩
    intro w0 w1 w2 hw
    exact absurd ⟨w0, w1, w2, hw⟩ hk

/-- Witness of C19: a key of the three expected parts. -/
theorem keyToRegisterID_spec_witness :
    ∃ id err, keyToRegisterID exampleFinder (examplePayload [1] [7, 8] [9]).Key = some (id, err)
      ∧ err = none ∧ id.Owner = [1] ∧ id.Controller = [] ∧ id.Key = [7, 8] := by
  obtain ⟨id, err, h, -, hs, -⟩ :=
    keyToRegisterID_spec exampleFinder (examplePayload [1] [7, 8] [9]).Key
  exact ⟨id, err, h, hs [1] [] [7, 8] rfl⟩

/-- No string starts with both `public` and `storage`. -/
theorem not_public_and_storage (key : GoString) :
    (HasPrefix key (ascii "public") && HasPrefix key (ascii "private")
      && HasPrefix key (ascii "storage")) = false := by
  have hp : ascii "public" = [112, 117, 98, 108, 105, 99] := by decide
  have hs : ascii "storage" = [115, 116, 111, 114, 97, 103, 101] := by decide
  rw [hp, hs]
  cases key with
  | nil => simp [HasPrefix]
  | cons a rest =>
    by_cases h : a = 112
    · subst h
      simp [HasPrefix]
    · simp [HasPrefix, h]

/-- C16 (the code at the failing input): a payload whose register key is
`storage/vault`, which starts with the identifier of the storage domain and is
not a state key of the virtual machine, is skipped: `DetectFlow` returns nil at
the return of the keys that are not storage paths, the value is not decoded and
`flows` is unchanged. -/
theorem DetectFlow_storage_key_skipped :
    HasPrefix (ascii "storage/vault") exampleFinder.PathDomainStorage = true
    ∧ DetectFlow exampleFinder 5 (examplePayload [1] (ascii "storage/vault") [9, 9]) [] =
        some { err := none, flows := [], stage := .notStoragePath } := by
  decide

/-- C18: with the domain identifiers `public`, `private` and `storage`,
`DetectFlow` never reaches the decoding of the value: for every path, payload
and flows it returns with `flows` unchanged, and its error is the error of
`keyToRegisterID` on the payload key: nil when the key is accepted, non-nil
exactly when it is rejected. -/
theorem DetectFlow_never_records (F : FlowFinder) (path : F.Path) (p : Payload)
    (flows : F.Flows)
    (hdomains : (F.PathDomainPublic, F.PathDomainPrivate, F.PathDomainStorage)
      = (ascii "public", ascii "private", ascii "storage")) :
    ∃ r id err, DetectFlow F path p flows = some r
      ∧ keyToRegisterID F p.Key = some (id, err)
      ∧ r.flows = flows ∧ r.stage ≠ .detected ∧ r.err = err
      ∧ (r.err ≠ none ↔ ¬ ∃ v0 v1 v2, p.Key.KeyParts =
          [⟨F.KeyPartOwner, v0⟩, ⟨F.KeyPartController, v1⟩, ⟨F.KeyPartKey, v2⟩]) := by
  simp only [Prod.mk.injEq] at hdomains
  obtain ⟨hpub, hpriv, hsto⟩ := hdomains
  rcases keyToRegisterID_cases F p.Key with ⟨v0, v1, v2, hk, hr⟩ | ⟨hk, hr⟩
  · have hguard := not_public_and_storage (NewRegisterID v0 v1 v2).Key
    by_cases hfvm : F.IsFVMStateKey (NewRegisterID v0 v1 v2).Owner
        (NewRegisterID v0 v1 v2).Controller (NewRegisterID v0 v1 v2).Key = true
    · refine ⟨{ err := none, flows := flows, stage := .fvmStateKey }, _, _, ?_, hr, rfl,
        (fun h => by cases h), rfl, ?_⟩
      · simp only [DetectFlow, hr, hfvm, if_true]
      · exact ⟨fun h => absurd rfl h, fun h => absurd ⟨v0, v1, v2, hk⟩ h⟩
    · refine ⟨{ err := none, flows := flows, stage := .notStoragePath }, _, _, ?_, hr, rfl,
        (fun h => by cases h), rfl, ?_⟩
      · simp only [DetectFlow, hr, hfvm, hpub, hpriv, hsto, hguard]
        rfl
      · exact ⟨fun h => absurd rfl h, fun h => absurd ⟨v0, v1, v2, hk⟩ h⟩
  · refine ⟨{ err := some (errKeyFormat (F.keyString p.Key)), flows := flows,
              stage := .keyRejected }, _, _, ?_, hr, rfl, (fun h => by cases h), rfl, ?_⟩
    · simp only [DetectFlow, hr]
    · exact ⟨fun _ => hk, fun _ => by simp⟩

/-- Witness of C18: a payload with a storage key and a payload with a malformed
key. -/
theorem DetectFlow_never_records_witness :
    (∃ r id err, DetectFlow exampleFinder 5 (examplePayload [1] (ascii "storage/vault") [9]) []
        = some r
      ∧ keyToRegisterID exampleFinder (examplePayload [1] (ascii "storage/vault") [9]).Key
          = some (id, err)
      ∧ r.flows = [] ∧ r.stage ≠ .detected ∧ r.err = err
      ∧ (r.err ≠ none ↔ ¬ ∃ v0 v1 v2,
          (examplePayload [1] (ascii "storage/vault") [9]).Key.KeyParts =
            [⟨0, v0⟩, ⟨1, v1⟩, ⟨2, v2⟩])) :=
  DetectFlow_never_records exampleFinder 5 (examplePayload [1] (ascii "storage/vault") [9]) []
    rfl

/-! ## The cache key of `readRegister` -/

theorem hexDigit_val (n : Nat) (h : n < 16) :
    (hexDigit n).val = if n < 10 then 48 + n else 87 + n := by
  unfold hexDigit
  split
  · simp only [Fin.ofNat, Fin.val_mk]
    omega
  · simp only [Fin.ofNat, Fin.val_mk]
    omega

theorem hexDigit_ne_slash (n : Nat) (h : n < 16) : hexDigit n ≠ 47 := by
  intro he
  have hv := hexDigit_val n h
  rw [he] at hv
  have h47 : ((47 : Byte)).val = 47 := rfl
  rw [h47] at hv
  split at hv <;> omega

theorem hexDigit_injective (a b : Nat) (ha : a < 16) (hb : b < 16)
    (h : hexDigit a = hexDigit b) : a = b := by
  have hva := hexDigit_val a ha
  have hvb := hexDigit_val b hb
  rw [h] at hva
  rw [hva] at hvb
  split at hvb <;> split at hvb <;> omega

theorem slash_not_mem_hexBytes : ∀ bs : List Byte, (47 : Byte) ∉ hexBytes bs
  | [] => by simp [hexBytes]
  | b :: bs => by
    have h1 : b.val / 16 < 16 := by have := b.isLt; omega
    have h2 : b.val % 16 < 16 := Nat.mod_lt _ (by decide)
    simp only [hexBytes, List.mem_cons, not_or]
    exact ⟨fun h => hexDigit_ne_slash _ h1 h.symm, fun h => hexDigit_ne_slash _ h2 h.symm,
      slash_not_mem_hexBytes bs⟩

theorem hexBytes_injective : ∀ as bs : List Byte, hexBytes as = hexBytes bs → as = bs
  | [], [], _ => rfl
  | [], _ :: _, h => by simp [hexBytes] at h
  | _ :: _, [], h => by simp [hexBytes] at h
  | a :: as, b :: bs, h => by
    simp only [hexBytes, List.cons.injEq] at h
    obtain ⟨h1, h2, h3⟩ := h
    have ha := a.isLt
    have hb := b.isLt
    have e1 := hexDigit_injective _ _ (by omega) (by omega) h1
    have e2 := hexDigit_injective _ _ (Nat.mod_lt _ (by decide)) (Nat.mod_lt _ (by decide)) h2
    have hab : a = b := Fin.ext (by omega)
    rw [hab, hexBytes_injective as bs h3]

/-- The byte of the decimal digit character of a value below 10. -/
theorem digitChar_byte (m : Nat) (h : m < 10) :
    ((Fin.ofNat (Nat.digitChar m).toNat : Byte)).val = 48 + m := by
  interval_cases m <;> rfl

theorem toDigitsCore_value (fuel : Nat) :
    ∀ (n : Nat) (ds : List Char), n < fuel →
      ((Nat.toDigitsCore 10 fuel n ds).map fun c => (Fin.ofNat c.toNat : Byte)).foldl
          (fun acc b => acc * 10 + (b.val - 48)) 0
        = (ds.map fun c => (Fin.ofNat c.toNat : Byte)).foldl
          (fun acc b => acc * 10 + (b.val - 48)) n := by
  induction fuel with
  | zero => intro n ds h; omega
  | succ fuel ih =>
    intro n ds h
    have hd := digitChar_byte (n % 10) (Nat.mod_lt _ (by decide))
    simp only [Nat.toDigitsCore]
    by_cases h0 : n / 10 = 0
    · simp only [h0, if_true, List.map_cons, List.foldl_cons, hd]
      congr 1
      omega
    · simp only [h0, if_false]
      rw [ih (n / 10) _ (by omega)]
      simp only [List.map_cons, List.foldl_cons, hd]
      congr 1
      omega

theorem decimalValue_decimal (n : Nat) : decimalValue (decimal n) = n := by
  unfold decimalValue decimal Nat.toDigits
  rw [toDigitsCore_value (n + 1) n [] (by omega)]
  rfl

theorem slash_not_mem_toDigitsCore (fuel : Nat) :
    ∀ (n : Nat) (ds : List Char),
      (47 : Byte) ∉ ds.map (fun c => (Fin.ofNat c.toNat : Byte)) →
      (47 : Byte) ∉ (Nat.toDigitsCore 10 fuel n ds).map fun c => (Fin.ofNat c.toNat : Byte) := by
  induction fuel with
  | zero => intro n ds h; simpa [Nat.toDigitsCore] using h
  | succ fuel ih =>
    intro n ds h
    have hd := digitChar_byte (n % 10) (Nat.mod_lt _ (by decide))
    have hne : (47 : Byte) ≠ Fin.ofNat (Nat.digitChar (n % 10)).toNat := by
      intro he
      rw [← he] at hd
      have h47 : ((47 : Byte)).val = 47 := rfl
      rw [h47] at hd
      omega
    have hcons : (47 : Byte) ∉ (Nat.digitChar (n % 10) :: ds).map
        (fun c => (Fin.ofNat c.toNat : Byte)) := by
      simp only [List.map_cons, List.mem_cons, not_or]
      exact ⟨hne, h⟩
    simp only [Nat.toDigitsCore]
    by_cases h0 : n / 10 = 0
    · simp only [h0, if_true]
      exact hcons
    · simp only [h0, if_false]
      exact ih _ _ hcons

theorem slash_not_mem_decimal (n : Nat) : (47 : Byte) ∉ decimal n := by
  unfold decimal Nat.toDigits
  exact slash_not_mem_toDigitsCore _ _ _ (by simp)

/-- Two strings cut at their first `/` are equal part by part. -/
theorem split_at_slash : ∀ (a b x y : GoString), (47 : Byte) ∉ a → (47 : Byte) ∉ b →
    a ++ 47 :: x = b ++ 47 :: y → a = b ∧ x = y
  | [], [], x, y, _, _, h => by simpa using h
  | [], c :: b, x, y, _, hb, h => by
    simp only [List.nil_append, List.cons_append, List.cons.injEq] at h
    exact absurd (List.mem_cons.mpr (Or.inl h.1)) hb
  | c :: a, [], x, y, ha, _, h => by
    simp only [List.nil_append, List.cons_append, List.cons.injEq] at h
    exact absurd (List.mem_cons.mpr (Or.inl h.1.symm)) ha
  | c :: a, d :: b, x, y, ha, hb, h => by
    simp only [List.cons_append, List.cons.injEq] at h
    have ha1 : (47 : Byte) ∉ a := fun hm => ha (List.mem_cons_of_mem _ hm)
    have hb1 : (47 : Byte) ∉ b := fun hm => hb (List.mem_cons_of_mem _ hm)
    obtain ⟨e1, e2⟩ := split_at_slash a b x y ha1 hb1 h.2
    exact ⟨by rw [h.1, e1], e2⟩

/-- C17: the cache key is injective: two tuples of height, owner, controller
and key with the same cache key are equal, also when the owner, the controller
or the key is empty or the key holds `/` bytes. -/
theorem cacheKey_injective (height height1 : Nat)
    (owner controller key owner1 controller1 key1 : GoString)
    (h : cacheKey height owner controller key = cacheKey height1 owner1 controller1 key1) :
    height = height1 ∧ owner = owner1 ∧ controller = controller1 ∧ key = key1 := by
  simp only [cacheKey, List.append_assoc, List.singleton_append] at h
  obtain ⟨h1, h⟩ := split_at_slash _ _ _ _ (slash_not_mem_decimal _) (slash_not_mem_decimal _) h
  obtain ⟨h2, h⟩ := split_at_slash _ _ _ _ (slash_not_mem_hexBytes _) (slash_not_mem_hexBytes _) h
  obtain ⟨h3, h4⟩ := split_at_slash _ _ _ _ (slash_not_mem_hexBytes _)
    (slash_not_mem_hexBytes _) h
  refine ⟨?_, hexBytes_injective _ _ h2, hexBytes_injective _ _ h3, h4⟩
  have hv := congrArg decimalValue h1
  rwa [decimalValue_decimal, decimalValue_decimal] at hv

/-- Witness of C17: with an empty owner and an empty controller, the key `/`
and the empty key have different cache keys, and so do the heights 1 and 10. -/
theorem cacheKey_injective_witness :
    cacheKey 7 [] [] [47] ≠ cacheKey 7 [] [] [] ∧ cacheKey 1 [] [] [] ≠ cacheKey 10 [] [] [] :=
  ⟨fun h => absurd (cacheKey_injective 7 7 [] [] [47] [] [] [] h).2.2.2 (by decide),
   fun h => absurd (cacheKey_injective 1 10 [] [] [] [] [] [] h).1 (by decide)⟩

/-! ## The flat form of a forest -/

theorem Node.consistent_leaf {H : TrieParams} (p : TriePath) (v : Payload) (h : H.Hash)
    (hc : (Node.leaf p v h : Node H).consistent = true) : H.hashLeaf p v = h := by
  simpa [Node.consistent] using hc

theorem Node.consistent_branch {H : TrieParams} (l r : Node H) (d : Nat) (h : H.Hash)
    (hc : (Node.branch l r d h).consistent = true) :
    l.consistent = true ∧ r.consistent = true ∧ H.hashBranch l.hash r.hash d = h := by
  simpa [Node.consistent, and_assoc] using hc

theorem indexOfHash_some {H : TrieParams} (h : H.Hash) :
    ∀ (nodes : List (FlatNode H)) (i : Nat), indexOfHash h nodes = some i →
      ∃ r, nodes[i]? = some r ∧ r.hash = h
  | [], _, hi => by simp [indexOfHash] at hi
  | r :: rs, i, hi => by
    simp only [indexOfHash] at hi
    by_cases hr : r.hash = h
    · rw [if_pos hr] at hi
      cases hi
      exact ⟨r, by simp, hr⟩
    · rw [if_neg hr] at hi
      cases hj : indexOfHash h rs with
      | none => rw [hj] at hi; cases hi
      | some j =>
        rw [hj] at hi
        cases hi
        obtain ⟨r1, h1, h2⟩ := indexOfHash_some h rs j hj
        exact ⟨r1, by simpa using h1, h2⟩

theorem rebuildNodes_append {H : TrieParams} :
    ∀ (xs ys : List (FlatNode H)) (built : List (Node H)),
      rebuildNodes built (xs ++ ys) =
        match rebuildNodes built xs with
        | .error e => .error e
        | .ok b => rebuildNodes b ys
  | [], ys, built => rfl
  | x :: xs, ys, built => by
    simp only [List.cons_append, rebuildNodes]
    cases rebuildNode built x with
    | error e => rfl
    | ok n => exact rebuildNodes_append xs ys (built ++ [n])

theorem Good.nil {H : TrieParams} : Good ([] : List (FlatNode H)) [] :=
  ⟨rfl, rfl, by simp, by simp⟩

theorem Good.snoc {H : TrieParams} {nodes : List (FlatNode H)} {built : List (Node H)}
    (g : Good nodes built) (r : FlatNode H) (n : Node H)
    (hr : rebuildNode built r = .ok n) (hc : n.consistent = true) (hh : n.hash = r.hash) :
    Good (nodes ++ [r]) (built ++ [n]) := by
  refine ⟨?_, ?_, ?_, ?_⟩
  · rw [rebuildNodes_append, g.rebuilt]
    simp only [rebuildNodes, hr]
  · simp [g.length]
  · intro m hm
    rcases List.mem_append.mp hm with hm | hm
    · exact g.consistent m hm
    · simp only [List.mem_singleton] at hm
      rw [hm]; exact hc
  · intro i r1 hi
    by_cases hlt : i < nodes.length
    · rw [List.getElem?_append_left hlt] at hi
      obtain ⟨m, hm, hmh⟩ := g.hashes i r1 hi
      refine ⟨m, ?_, hmh⟩
      rw [List.getElem?_append_left (by rw [g.length]; exact hlt)]
      exact hm
    · have hge : nodes.length ≤ i := by omega
      rw [List.getElem?_append_right hge] at hi
      have hi0 : i - nodes.length = 0 := by
        by_contra hne
        have : 1 ≤ i - nodes.length := by omega
        rw [List.getElem?_eq_none (by simpa using this)] at hi
        cases hi
      rw [hi0] at hi
      simp only [List.getElem?_cons_zero, Option.some.injEq] at hi
      refine ⟨n, ?_, by rw [← hi]; exact hh⟩
      rw [List.getElem?_append_right (by rw [g.length]; exact hge), g.length, hi0]
      rfl

/-- A node whose hash has an index already: a node with that hash is built at
that index. -/
theorem Good.found {H : TrieParams} {nodes : List (FlatNode H)} {built : List (Node H)}
    (g : Good nodes built) (h : H.Hash) (i : Nat) (hi : indexOfHash h nodes = some i) :
    ∃ m : Node H, built[i]? = some m ∧ m.hash = h := by
  obtain ⟨r, hr, hrh⟩ := indexOfHash_some _ _ _ hi
  obtain ⟨m, hm, hmh⟩ := g.hashes i r hr
  exact ⟨m, hm, by rw [hmh, hrh]⟩

theorem Node.self_mem_nodes {H : TrieParams} (n : Node H) : n ∈ n.nodes := by
  cases n <;> simp [Node.nodes]

theorem getElem?_snoc_length {α : Type} (l : List α) (a : α) :
    (l ++ [a])[l.length]? = some a := by
  rw [List.getElem?_append_right (Nat.le_refl _), Nat.sub_self]
  rfl

/-- The traversal from a consistent node keeps the invariant: it succeeds, the
nodes built so far stay where they are, and the node rebuilt at the index it
returns has the hash of the node; it is the node itself when the nodes that
satisfy `P`, among them the nodes of the sub-tree, are content-addressed. -/
theorem flattenNode_good {H : TrieParams} (P : Node H → Prop) :
    ∀ (n : Node H) (nodes : List (FlatNode H)) (built : List (Node H)),
      Good nodes built →
      ((∀ a b, P a → P b → a.hash = b.hash → a = b) → ∀ m ∈ built, P m) →
      n.consistent = true → (∀ s ∈ n.nodes, P s) →
      ∃ nodes1 built1 i m, flattenNode nodes n = .ok (nodes1, i) ∧ Good nodes1 built1
        ∧ ((∀ a b, P a → P b → a.hash = b.hash → a = b) → ∀ m ∈ built1, P m)
        ∧ (∃ ext, built1 = built ++ ext) ∧ built1[i]? = some m ∧ m.hash = n.hash
        ∧ ((∀ a b, P a → P b → a.hash = b.hash → a = b) → m = n)
  | .empty, nodes, built, g, hP, hc, hs => by
    simp only [flattenNode]
    cases hi : indexOfHash H.emptyHash nodes with
    | some i =>
      obtain ⟨m, hm, hmh⟩ := g.found _ i hi
      exact ⟨nodes, built, i, m, rfl, g, hP, ⟨[], by simp⟩, hm, hmh, fun ca =>
        ca m .empty (hP ca m (List.getElem?_mem hm)) (hs _ (Node.self_mem_nodes _)) hmh⟩
    | none =>
      refine ⟨_, built ++ [.empty], _, .empty, rfl, g.snoc .empty .empty rfl rfl rfl, ?_,
        ⟨_, rfl⟩, ?_, rfl, fun _ => rfl⟩
      · intro ca m hm
        rcases List.mem_append.mp hm with hm | hm
        · exact hP ca m hm
        · simp only [List.mem_singleton] at hm
          rw [hm]; exact hs _ (Node.self_mem_nodes _)
      · rw [← g.length]
        exact getElem?_snoc_length _ _
  | .leaf p v h, nodes, built, g, hP, hc, hs => by
    have e := Node.consistent_leaf p v h hc
    simp only [flattenNode]
    cases hi : indexOfHash h nodes with
    | some i =>
      obtain ⟨m, hm, hmh⟩ := g.found _ i hi
      refine ⟨nodes, built, i, m, ?_, g, hP, ⟨[], by simp⟩, hm, hmh, fun ca =>
        ca m (.leaf p v h) (hP ca m (List.getElem?_mem hm)) (hs _ (Node.self_mem_nodes _)) hmh⟩
      simp only [e, if_true]
    | none =>
      refine ⟨_, built ++ [.leaf p v h], _, .leaf p v h, rfl,
        g.snoc (.leaf p v h) (.leaf p v h) ?_ hc rfl, ?_, ⟨_, rfl⟩, ?_, rfl, fun _ => rfl⟩
      · simp only [rebuildNode, e, if_true]
      · intro ca m hm
        rcases List.mem_append.mp hm with hm | hm
        · exact hP ca m hm
        · simp only [List.mem_singleton] at hm
          rw [hm]; exact hs _ (Node.self_mem_nodes _)
      · rw [← g.length]
        exact getElem?_snoc_length _ _
  | .branch l r d h, nodes, built, g, hP, hc, hs => by
    obtain ⟨cl, cr, e⟩ := Node.consistent_branch l r d h hc
    simp only [flattenNode]
    cases hi : indexOfHash h nodes with
    | some i =>
      obtain ⟨m, hm, hmh⟩ := g.found _ i hi
      refine ⟨nodes, built, i, m, ?_, g, hP, ⟨[], by simp⟩, hm, hmh, fun ca =>
        ca m (.branch l r d h) (hP ca m (List.getElem?_mem hm)) (hs _ (Node.self_mem_nodes _))
          hmh⟩
      simp only [e, if_true]
    | none =>
      have hsl : ∀ s ∈ l.nodes, P s := fun s hm =>
        hs s (by simp only [Node.nodes, List.mem_cons, List.mem_append]; exact Or.inr (Or.inl hm))
      have hsr : ∀ s ∈ r.nodes, P s := fun s hm =>
        hs s (by simp only [Node.nodes, List.mem_cons, List.mem_append]; exact Or.inr (Or.inr hm))
      obtain ⟨nodes1, built1, i, ml, h1, g1, hP1, ⟨ext1, hx1⟩, hl, hlh, hle⟩ :=
        flattenNode_good P l nodes built g hP cl hsl
      obtain ⟨nodes2, built2, j, mr, h2, g2, hP2, ⟨ext2, hx2⟩, hr, hrh, hre⟩ :=
        flattenNode_good P r nodes1 built1 g1 hP1 cr hsr
      have hl2 : built2[i]? = some ml := by
        have hlt : i < built1.length := by
          by_contra hge
          rw [List.getElem?_eq_none (by omega)] at hl
          cases hl
        rw [hx2, List.getElem?_append_left hlt]
        exact hl
      have e2 : H.hashBranch ml.hash mr.hash d = h := by rw [hlh, hrh]; exact e
      have hcm : (Node.branch ml mr d h).consistent = true := by
        simp [Node.consistent, g2.consistent ml (List.getElem?_mem hl2),
          g2.consistent mr (List.getElem?_mem hr), e2]
      have heq : (∀ a b, P a → P b → a.hash = b.hash → a = b) →
          Node.branch ml mr d h = Node.branch l r d h := by
        intro ca
        rw [hle ca, hre ca]
      refine ⟨nodes2 ++ [.branch i j d h], built2 ++ [.branch ml mr d h], nodes2.length,
        .branch ml mr d h, ?_, g2.snoc (.branch i j d h) (.branch ml mr d h) ?_ hcm rfl, ?_,
        ⟨ext1 ++ ext2 ++ [.branch ml mr d h], ?_⟩, ?_, rfl, heq⟩
      · simp only [h1, h2]
      · simp only [rebuildNode, hl2, hr, e2, if_true]
      · intro ca m hm
        rcases List.mem_append.mp hm with hm | hm
        · exact hP2 ca m hm
        · simp only [List.mem_singleton] at hm
          rw [hm, heq ca]; exact hs _ (Node.self_mem_nodes _)
      · rw [hx2, hx1]
        simp only [List.append_assoc]
      · rw [← g2.length]
        exact getElem?_snoc_length _ _

theorem rebuildRoots_extend {H : TrieParams} (built ext : List (Node H)) :
    ∀ (roots : List (Nat × H.Hash)) (tries : List (Trie H)),
      rebuildRoots built roots = .ok tries → rebuildRoots (built ++ ext) roots = .ok tries
  | [], tries, h => by simpa [rebuildRoots] using h
  | r :: rs, tries, h => by
    simp only [rebuildRoots] at h ⊢
    cases hb : built[r.1]? with
    | none => rw [hb] at h; cases h
    | some n =>
      rw [hb] at h
      have hlt : r.1 < built.length := by
        by_contra hge
        rw [List.getElem?_eq_none (by omega)] at hb
        cases hb
      rw [List.getElem?_append_left hlt, hb]
      cases hrs : rebuildRoots built rs with
      | error e => rw [hrs] at h; cases h
      | ok ts =>
        rw [hrs] at h
        rw [rebuildRoots_extend built ext rs ts hrs]
        exact h

theorem rebuildRoots_snoc {H : TrieParams} (built : List (Node H)) (i : Nat) (c : H.Hash)
    (n : Node H) (hn : built[i]? = some n) :
    ∀ (roots : List (Nat × H.Hash)) (tries : List (Trie H)),
      rebuildRoots built roots = .ok tries →
      rebuildRoots built (roots ++ [(i, c)]) = .ok (tries ++ [{ root := n }])
  | [], tries, h => by
    simp only [rebuildRoots] at h
    cases h
    simp only [List.nil_append, rebuildRoots, hn]
  | r :: rs, tries, h => by
    simp only [rebuildRoots, List.cons_append] at h ⊢
    cases hb : built[r.1]? with
    | none => rw [hb] at h; cases h
    | some m =>
      rw [hb] at h
      simp only []
      cases hrs : rebuildRoots built rs with
      | error e => rw [hrs] at h; cases h
      | ok ts =>
        rw [hrs] at h
        cases h
        have ih := rebuildRoots_snoc built i c n hn rs ts hrs
        rw [← List.append_eq] at ih
        rw [ih]
        rfl

/-- The traversal over entries with consistent tries keeps the invariant, and
the roots it records are rebuilt to tries with the root hashes of the tries of
the entries, in order: to these tries themselves when the nodes that satisfy
`P`, among them the nodes of the entries, are content-addressed. -/
theorem flattenEntries_good {H : TrieParams} (P : Node H → Prop) :
    ∀ (es : List (ForestEntry H)) (nodes : List (FlatNode H)) (built : List (Node H))
      (roots : List (Nat × H.Hash)) (rebuilt tries : List (Trie H)),
      Good nodes built →
      ((∀ a b, P a → P b → a.hash = b.hash → a = b) → ∀ m ∈ built, P m) →
      (∀ e ∈ es, e.trie.root.consistent = true) →
      (∀ e ∈ es, ∀ s ∈ e.trie.root.nodes, P s) →
      rebuildRoots built roots = .ok rebuilt →
      (rebuilt.map fun t => t.RootHash) = (tries.map fun t => t.RootHash) →
      ((∀ a b, P a → P b → a.hash = b.hash → a = b) → rebuilt = tries) →
      ∃ flat built1 rebuilt1, flattenEntries es nodes roots = .ok flat ∧ Good flat.nodes built1
        ∧ rebuildRoots built1 flat.roots = .ok rebuilt1
        ∧ (rebuilt1.map fun t => t.RootHash)
            = ((tries ++ es.map fun e => e.trie).map fun t => t.RootHash)
        ∧ ((∀ a b, P a → P b → a.hash = b.hash → a = b) →
            rebuilt1 = tries ++ es.map fun e => e.trie)
  | [], nodes, built, roots, rebuilt, tries, g, _, _, _, hr, hh, he =>
    ⟨_, built, rebuilt, rfl, g, hr, by simpa using hh, by simpa using he⟩
  | e :: es, nodes, built, roots, rebuilt, tries, g, hP, hc, hs, hr, hh, he => by
    obtain ⟨nodes1, built1, i, m, h1, g1, hP1, ⟨ext, hx⟩, hroot, hmh, hme⟩ :=
      flattenNode_good P e.trie.root nodes built g hP (hc e (List.mem_cons_self _ _))
        (hs e (List.mem_cons_self _ _))
    have hr1 : rebuildRoots built1 (roots ++ [(i, e.commitment)])
        = .ok (rebuilt ++ [{ root := m }]) :=
      rebuildRoots_snoc built1 i e.commitment m hroot roots rebuilt
        (by rw [hx]; exact rebuildRoots_extend built ext roots rebuilt hr)
    obtain ⟨flat, built2, rebuilt2, h2, g2, hr2, hh2, he2⟩ := flattenEntries_good P es nodes1
      built1 (roots ++ [(i, e.commitment)]) (rebuilt ++ [{ root := m }]) (tries ++ [e.trie])
      g1 hP1 (fun e1 he1 => hc e1 (List.mem_cons_of_mem _ he1))
      (fun e1 he1 => hs e1 (List.mem_cons_of_mem _ he1)) hr1
      (by
        simp only [List.map_append, List.map_cons, List.map_nil, hh]
        congr 2)
      (fun ca => by rw [he ca, hme ca])
    refine ⟨flat, built2, rebuilt2, ?_, g2, hr2, ?_, ?_⟩
    · simp only [flattenEntries, h1, h2]
    · rw [hh2]
      simp
    · intro ca
      rw [he2 ca]
      simp

/-- The flat form of a forest of consistent tries is rebuilt to as many tries,
with the root hashes of the tries of the forest, in order; the rebuilt tries
are the tries of the forest when its nodes are content-addressed. -/
theorem RebuildTries_FlattenForest {H : TrieParams} (f : Forest H)
    (hf : ∀ t ∈ f.Tries, t.root.consistent = true) :
    ∃ flat rebuilt, FlattenForest f = .ok flat ∧ RebuildTries flat = .ok rebuilt
      ∧ rebuilt.length = f.Tries.length
      ∧ (rebuilt.map fun t => t.RootHash) = (f.Tries.map fun t => t.RootHash)
      ∧ (f.contentAddressed → rebuilt = f.Tries) := by
  have hsub : ∀ e ∈ f.entries, ∀ s ∈ e.trie.root.nodes, s ∈ f.nodes := by
    intro e he s hs
    simp only [Forest.nodes, Forest.Tries, List.mem_flatMap, List.mem_map]
    exact ⟨e.trie, ⟨e, he, rfl⟩, hs⟩
  obtain ⟨flat, built, rebuilt, h1, g, hr, hh, he⟩ := flattenEntries_good (fun n => n ∈ f.nodes)
    f.entries [] [] [] [] [] Good.nil (fun _ m hm => by simp at hm)
    (fun e he => hf e.trie (List.mem_map.mpr ⟨e, he, rfl⟩)) hsub rfl rfl (fun _ => rfl)
  simp only [List.nil_append] at hh he
  refine ⟨flat, rebuilt, h1, ?_, ?_, hh, ?_⟩
  · simp only [RebuildTries, g.rebuilt]
    exact hr
  · have := congrArg List.length hh
    simpa [Forest.Tries] using this
  · intro ca
    exact he (fun a b ha hb hab => ca a ha b hb hab)

theorem Node.mkLeaf_consistent {H : TrieParams} (p : TriePath) (v : Payload) :
    (Node.mkLeaf p v : Node H).consistent = true := by
  simp [Node.mkLeaf, Node.consistent]

theorem Node.mkBranch_consistent {H : TrieParams} (l r : Node H) (d : Nat)
    (hl : l.consistent = true) (hr : r.consistent = true) :
    (Node.mkBranch l r d).consistent = true := by
  simp [Node.mkBranch, Node.consistent, hl, hr]

theorem Node.children_consistent {H : TrieParams} (n : Node H) (h : n.consistent = true) :
    n.children.1.consistent = true ∧ n.children.2.consistent = true := by
  cases n with
  | empty => exact ⟨rfl, rfl⟩
  | leaf p v h1 => exact ⟨rfl, rfl⟩
  | branch l r d h1 =>
    obtain ⟨cl, cr, -⟩ := Node.consistent_branch l r d h1 h
    exact ⟨cl, cr⟩

/-- The batch insert keeps the hashes consistent. -/
theorem Node.update_consistent {H : TrieParams} :
    ∀ (remaining depth : Nat) (n : Node H) (writes : List (TriePath × Payload)),
      n.consistent = true → (Node.update remaining depth n writes).consistent = true
  | 0, _, n, [], h => by simpa [Node.update] using h
  | _ + 1, _, n, [], h => by simpa [Node.update] using h
  | 0, _, n, w :: ws, _ => by
    simp only [Node.update]
    exact Node.mkLeaf_consistent _ _
  | remaining + 1, depth, n, w :: ws, h => by
    simp only [Node.update]
    exact Node.mkBranch_consistent _ _ _
      (Node.update_consistent remaining (depth + 1) _ _ (Node.children_consistent n h).1)
      (Node.update_consistent remaining (depth + 1) _ _ (Node.children_consistent n h).2)

/-- `Mutate` keeps the hashes consistent. -/
theorem Trie.Mutate_consistent {H : TrieParams} (t t1 : Trie H) (paths : List TriePath)
    (payloads : List Payload) (h : t.root.consistent = true)
    (hm : t.Mutate paths payloads = .ok t1) : t1.root.consistent = true := by
  unfold Trie.Mutate at hm
  split at hm
  · cases hm
  · split at hm
    · cases hm
    · cases hm
      exact Node.update_consistent _ _ _ _ h

/-- C13: for every forest of tries with consistent hashes (as `NewEmpty` and
`Mutate` make them), holding no trie, one or many, sharing sub-trees or not,
`FlattenForest` succeeds, and `RebuildTries` of its result succeeds and returns
as many tries as the forest holds, in the same order, each with the root hash
of the original; each has the root node of the original when the nodes of the
forest are content-addressed, as the data model requires (two nodes with
identical hash are identical).  For a trie made by two `Mutate` calls of 99 and
117 writes and the empty trie, two distinct tries added to a new forest, it
returns exactly two tries, with these root hashes and, under the same
invariant, these root nodes. -/
theorem flatten_rebuild_roundtrip (H : TrieParams) :
    (∀ f : Forest H, (∀ t ∈ f.Tries, t.root.consistent = true) →
      ∃ flat rebuilt, FlattenForest f = .ok flat ∧ RebuildTries flat = .ok rebuilt
        ∧ rebuilt.length = f.Tries.length
        ∧ (∀ i : Nat, (rebuilt[i]?.map fun t : Trie H => t.RootHash)
            = f.Tries[i]?.map fun t : Trie H => t.RootHash)
        ∧ (f.contentAddressed → rebuilt = f.Tries
            ∧ ∀ i : Nat, (rebuilt[i]?.map fun t : Trie H => t.root)
                = f.Tries[i]?.map fun t : Trie H => t.root))
    ∧ (∀ (paths1 paths2 : List TriePath) (payloads1 payloads2 : List Payload)
        (trie0 trie1 : Trie H) (c : H.Hash),
        paths1.length = 99 → paths2.length = 117 →
        (Trie.NewEmpty H).Mutate paths1 payloads1 = .ok trie0 →
        trie0.Mutate paths2 payloads2 = .ok trie1 →
        trie1.RootHash ≠ (Trie.NewEmpty H).RootHash →
        ∃ flat rebuilt,
          FlattenForest (((Forest.New H).Add trie1 none c).Add (Trie.NewEmpty H) none c)
            = .ok flat
          ∧ RebuildTries flat = .ok rebuilt
          ∧ rebuilt.length = 2
          ∧ (rebuilt.map fun t => t.RootHash) = [trie1.RootHash, (Trie.NewEmpty H).RootHash]
          ∧ ((((Forest.New H).Add trie1 none c).Add (Trie.NewEmpty H) none c).contentAddressed →
              rebuilt = [trie1, Trie.NewEmpty H])) := by
  constructor
  · intro f hf
    obtain ⟨flat, rebuilt, h1, h2, h3, h4, h5⟩ := RebuildTries_FlattenForest f hf
    refine ⟨flat, rebuilt, h1, h2, h3, ?_, ?_⟩
    · intro i
      have := congrArg (fun l => l[i]?) h4
      simpa only [List.getElem?_map] using this
    · intro ca
      exact ⟨h5 ca, fun i => by rw [h5 ca]⟩
  · intro paths1 paths2 payloads1 payloads2 trie0 trie1 c _ _ hm0 hm1 hne
    have c0 : trie0.root.consistent = true :=
      Trie.Mutate_consistent (Trie.NewEmpty H) _ _ _ rfl hm0
    have c1 : trie1.root.consistent = true := Trie.Mutate_consistent _ _ _ _ c0 hm1
    have hforest : (((Forest.New H).Add trie1 none c).Add (Trie.NewEmpty H) none c).Tries
        = [trie1, Trie.NewEmpty H] := by
      simp [Forest.Add, Forest.New, Forest.Tries, hne]
    obtain ⟨flat, rebuilt, h1, h2, h3, h4, h5⟩ := RebuildTries_FlattenForest
      (((Forest.New H).Add trie1 none c).Add (Trie.NewEmpty H) none c) (by
        rw [hforest]
        intro t ht
        simp only [List.mem_cons, List.mem_singleton, List.not_mem_nil, or_false] at ht
        rcases ht with ht | ht
        · rw [ht]; exact c1
        · rw [ht]; rfl)
    rw [hforest] at h3 h4 h5
    exact ⟨flat, rebuilt, h1, h2, h3, h4, h5⟩

/-- Witness of C13: the example forest of three tries, two of which share a
sub-tree and one of which is empty, with the content as hash, and the same
forest with a digest of fixed size. -/
theorem flatten_rebuild_roundtrip_witness :
    (exampleForest.Tries.length = 3
      ∧ ∃ flat rebuilt, FlattenForest exampleForest = .ok flat
        ∧ RebuildTries flat = .ok rebuilt
        ∧ rebuilt.length = exampleForest.Tries.length
        ∧ rebuilt = exampleForest.Tries)
    ∧ (digestForest.Tries.length = 3
      ∧ ∃ flat rebuilt, FlattenForest digestForest = .ok flat
        ∧ RebuildTries flat = .ok rebuilt
        ∧ rebuilt.length = digestForest.Tries.length
        ∧ rebuilt = digestForest.Tries) := by
  obtain ⟨flat, rebuilt, h1, h2, h3, -, h5⟩ :=
    (flatten_rebuild_roundtrip exampleParams).1 exampleForest (by decide)
  obtain ⟨flat1, rebuilt1, k1, k2, k3, -, k5⟩ :=
    (flatten_rebuild_roundtrip digestParams).1 digestForest (by decide)
  exact ⟨⟨by decide, flat, rebuilt, h1, h2, h3, (h5 (by decide)).1⟩,
    ⟨by decide, flat1, rebuilt1, k1, k2, k3, (k5 (by decide)).1⟩⟩

/-! ## The length fields of an Update record -/

/-- The bounds of the round trip of an Update record are needed: the key
length is written in two bytes, so an Update record with one pair whose key has
65536 bytes is written with the key length 0 and does not decode to the
original update. -/
theorem Decode_update_key_of_65536_bytes (valid : List Byte → Bool) (key : List Byte)
    (hkey : key.length = 65536) :
    Decode (specFlowGo valid) (Encode (.Update [] [(key, [])])) ≠
      some { operation := OperationUpdate, rootHash := [],
             update := some { rootHash := [], pairs := [(key, [])] }, err := none } := by
  have a0 : appendUint16 0 = [0, 0] := by decide
  have a1 : appendUint32 1 = [0, 0, 0, 1] := by decide
  have a2 : appendUint16 65536 = [0, 0] := by decide
  have e1 : Encode (.Update [] [(key, ([] : List Byte))]) =
      OperationUpdate :: ([0, 0] ++ ([0, 0, 0, 1] ++ ([0, 0] ++
        encodePairs [(key, ([] : List Byte))]))) := by
    simp only [Encode, keyLength, hkey, List.length_nil, List.length_singleton,
      List.append_assoc, List.append_nil, a0, a1, a2]
  have h3 : 3 ≤ (([0, 0] : List Byte) ++ ([0, 0, 0, 1] ++ ([0, 0] ++
      encodePairs [(key, ([] : List Byte))]))).length := by simp
  have hdec : decodeTrieUpdate (([0, 0] : List Byte) ++ ([0, 0, 0, 1] ++ ([0, 0] ++
      encodePairs [(key, ([] : List Byte))]))) =
      match readPairs 0 1 (encodePairs [(key, ([] : List Byte))]) with
      | .error e => .error e
      | .ok (pairs, _) => .ok { rootHash := [], pairs := pairs } := rfl
  intro h
  rw [e1, Decode_update_spec valid _ h3, hdec] at h
  cases hp : readPairs 0 1 (encodePairs [(key, ([] : List Byte))]) with
  | error e =>
    rw [hp] at h
    cases h
  | ok v =>
    obtain ⟨pairs, rest⟩ := v
    rw [hp] at h
    simp only [Option.some.injEq, Decoded.mk.injEq, TrieUpdate.mk.injEq, true_and,
      and_true] at h
    have := (readPairs_ok 0 1 _ pairs rest hp).2.1 (key, []) (by rw [h]; simp)
    simp only at this
    omega

end FlowDPS
